import Mathlib

/-!
Shallow embedding of the text-analytics core of `packages/analysis/ai_analyze.py`
(Discord chat style profiler), together with proofs settling the frozen claims
about it.  Python strings are modelled as `String`/`List Char`, Python `int` as
`ℕ`/`ℤ`, Python `float` as `ℝ`, Python `dict`/`Counter` as association lists,
and the per-author `defaultdict` tables of `main` as total functions with the
default as initial value.
-/

/-! ## Character classes and low-level string helpers -/

/-- Whitespace for purposes of Python `str.strip()` and the regex class `\s`.
Note that U+200B (zero-width space) is *not* whitespace in Python. -/
def isSpc (c : Char) : Bool :=
  c = ' ' || c = '\t' || c = '\n' || c = '\r' || c = '\x0b' || c = '\x0c' ||
  c = '\u00a0' || c = '\u1680' || ('\u2000' ≤ c && c ≤ '\u200a') ||
  c = '\u2028' || c = '\u2029' || c = '\u202f' || c = '\u205f' || c = '\u3000' ||
  c = '\u0085' || ('\u001c' ≤ c && c ≤ '\u001f')

/-- The zero-width space character removed by `normalize_content`. -/
def zwspChar : Char := '\u200b'

/-- The backtick character (used by `has_code_block`). -/
def backtickChar : Char := Char.ofNat 96

/-- The apostrophe character (member of the token character classes). -/
def apostropheChar : Char := Char.ofNat 39

/-- The regex class `[a-z0-9']` used by `tokenize`. -/
def lexChar (c : Char) : Bool :=
  ('a' ≤ c && c ≤ 'z') || ('0' ≤ c && c ≤ '9') || c = apostropheChar

/-- The regex class `[A-Za-z0-9']` used by `basic_words`. -/
def wordLikeChar (c : Char) : Bool :=
  ('A' ≤ c && c ≤ 'Z') || ('a' ≤ c && c ≤ 'z') || ('0' ≤ c && c ≤ '9') ||
  c = apostropheChar

/-- The regex class `\w` (ASCII model), used for word boundaries `\b` and in
mention names. -/
def pyWordChar (c : Char) : Bool :=
  ('A' ≤ c && c ≤ 'Z') || ('a' ≤ c && c ≤ 'z') || ('0' ≤ c && c ≤ '9') || c = '_'

/-- Helper for extracting the maximal runs a `findall` over a character class
returns: `cur` is the (reversed) run currently being read. -/
def runsAux (p : Char → Bool) (cur : List Char) : List Char → List (List Char)
  | [] => if cur.isEmpty then [] else [cur.reverse]
  | c :: rest =>
    if p c then runsAux p (c :: cur) rest
    else if cur.isEmpty then runsAux p [] rest
    else cur.reverse :: runsAux p [] rest

/-- `re.findall` of the one-class-plus pattern `[class]+`: the maximal runs of
characters of the class, in reading order. -/
def extractRuns (p : Char → Bool) (l : List Char) : List (List Char) :=
  runsAux p [] l

/-- Python `str.strip()` on the left: drop leading whitespace. -/
def lstrip (l : List Char) : List Char := l.dropWhile isSpc

/-- Python `str.strip()` on the right: drop trailing whitespace. -/
def rstrip (l : List Char) : List Char := (l.reverse.dropWhile isSpc).reverse

/-- Python `str.strip()`: drop leading and trailing whitespace. -/
def pyStrip (l : List Char) : List Char := rstrip (lstrip l)

/-- Python `str.strip()` on a `String`. -/
def pyStripStr (s : String) : String := String.mk (pyStrip s.data)

/-! ## The URL pattern `https?://\S+` and `normalize_content` -/

/-- The characters of the literal `"https://"`. -/
def httpsChars : List Char := ['h', 't', 't', 'p', 's', ':', '/', '/']

/-- The characters of the literal `"http://"`. -/
def httpChars : List Char := ['h', 't', 't', 'p', ':', '/', '/']

/-- Matching the scheme part `https?://` of the URL regex at the head of a
list: the greedy optional `s?` tries `https://` first, then `http://`;
returns the remainder after the scheme. -/
def schemeSplit (l : List Char) : Option (List Char) :=
  if l.take 8 = httpsChars then some (l.drop 8)
  else if l.take 7 = httpChars then some (l.drop 7)
  else none

/-- Matching the full URL regex `https?://\S+` at the head of a list: after
the scheme there must be at least one non-space character, and the greedy
`\S+` consumes the maximal run of non-space characters.  Returns the
remainder after the match, or `none` when the head does not match. -/
def matchUrl (l : List Char) : Option (List Char) :=
  match schemeSplit l with
  | none => none
  | some r =>
    match r with
    | [] => none
    | d :: t =>
      if isSpc d then none else some ((d :: t).dropWhile (fun c => !isSpc c))

theorem schemeSplit_some {l r : List Char} (h : schemeSplit l = some r) :
    l = httpsChars ++ r ∨ l = httpChars ++ r := by
  unfold schemeSplit at h
  split at h
  · rename_i h8
    left
    injection h with h'
    subst h'
    conv_lhs => rw [← List.take_append_drop 8 l]
    rw [h8]
  · split at h
    · rename_i h7
      right
      injection h with h'
      subst h'
      conv_lhs => rw [← List.take_append_drop 7 l]
      rw [h7]
    · exact absurd h (by simp)

theorem schemeSplit_https (r : List Char) :
    schemeSplit (httpsChars ++ r) = some r := by
  unfold schemeSplit
  rw [if_pos, List.drop_append_of_le_length (by simp [httpsChars])]
  · simp [httpsChars]
  · rw [List.take_append_of_le_length (by simp [httpsChars])]
    simp [httpsChars]

theorem schemeSplit_http (r : List Char) :
    schemeSplit (httpChars ++ r) = some r := by
  unfold schemeSplit
  have h7 : (httpChars ++ r).take 7 = httpChars := by
    rw [List.take_append_of_le_length (by simp [httpChars])]
    simp [httpChars]
  have h8 : ¬((httpChars ++ r).take 8 = httpsChars) := by
    intro h
    have h4 : ((httpChars ++ r).take 8).take 5 = httpsChars.take 5 := by rw [h]
    simp [httpChars, httpsChars, List.take_take, List.take_append_eq_append_take] at h4
  rw [if_neg h8, if_pos h7, List.drop_append_of_le_length (by simp [httpChars])]
  simp [httpChars]

theorem dropWhile_length_le (p : Char → Bool) (l : List Char) :
    (l.dropWhile p).length ≤ l.length := by
  induction l with
  | nil => simp
  | cons c rest ih =>
    by_cases h : p c
    · simpa [List.dropWhile, h] using Nat.le_succ_of_le ih
    · simp [List.dropWhile, h]

theorem matchUrl_some_shape {l r : List Char} (h : matchUrl l = some r) :
    ∃ sch d t, (sch = httpsChars ∨ sch = httpChars) ∧
      l = sch ++ d :: t ∧ isSpc d = false := by
  cases hs : schemeSplit l with
  | none => simp only [matchUrl, hs] at h; cases h
  | some r' =>
    cases r' with
    | nil => simp only [matchUrl, hs] at h; cases h
    | cons d t =>
      simp only [matchUrl, hs] at h
      rcases schemeSplit_some hs with h' | h' <;>
      · by_cases hd : isSpc d
        · rw [if_pos hd] at h; cases h
        · exact ⟨_, d, t, by tauto, h', by simpa using hd⟩

theorem matchUrl_of_shape {sch : List Char} {d : Char} {t : List Char}
    (hsch : sch = httpsChars ∨ sch = httpChars) (hd : isSpc d = false) :
    matchUrl (sch ++ d :: t) ≠ none := by
  unfold matchUrl
  rcases hsch with h | h <;> subst h
  · rw [schemeSplit_https]
    simp [hd]
  · rw [schemeSplit_http]
    simp [hd]

theorem matchUrl_length {l r : List Char} (h : matchUrl l = some r) :
    r.length < l.length := by
  cases hs : schemeSplit l with
  | none => simp only [matchUrl, hs] at h; cases h
  | some r' =>
    cases r' with
    | nil => simp only [matchUrl, hs] at h; cases h
    | cons d t =>
      simp only [matchUrl, hs] at h
      by_cases hd : isSpc d
      · rw [if_pos hd] at h; cases h
      · rw [if_neg hd] at h
        injection h with h
        have hr : r.length ≤ (d :: t).length := by
          rw [← h]; exact dropWhile_length_le _ _
        have : (d :: t).length < l.length := by
          rcases schemeSplit_some hs with h' | h' <;>
            (subst h'; simp [httpsChars, httpChars])
        omega

/-- `re.sub(r"https?://\S+", " ", text)`: scan left to right, replacing each
(leftmost, greedy, non-overlapping) match of the URL pattern with a single
space. -/
def urlSub (l : List Char) : List Char :=
  match l with
  | [] => []
  | c :: rest =>
    match h : matchUrl (c :: rest) with
    | some r => ' ' :: urlSub r
    | none => c :: urlSub rest
termination_by l.length
decreasing_by
  · exact matchUrl_length h
  · simp

theorem urlSub_nil : urlSub [] = [] := by rw [urlSub]

theorem urlSub_match {c : Char} {rest r : List Char}
    (h : matchUrl (c :: rest) = some r) :
    urlSub (c :: rest) = ' ' :: urlSub r := by
  rw [urlSub, h]

theorem urlSub_nomatch {c : Char} {rest : List Char}
    (h : matchUrl (c :: rest) = none) :
    urlSub (c :: rest) = c :: urlSub rest := by
  rw [urlSub, h]

/-- The zero-width-space replacement of `normalize_content`: U+200B becomes a space. -/
def zwspSub (l : List Char) : List Char :=
  l.map (fun c => if c = zwspChar then ' ' else c)

/-- `normalize_content` on raw characters: URL removal, zero-width-space
replacement, then strip. -/
def normalizeChars (l : List Char) : List Char :=
  pyStrip (zwspSub (urlSub l))

/-- `normalize_content(text)`: replaces every match of `https?://\S+` with a
space, replaces `"​"` with a space, and strips the result. -/
def normalize_content (s : String) : String :=
  String.mk (normalizeChars s.data)

/-! ## Tokenization -/

/-- The noise-token set `NOISE_TOKENS = {"missing"}`. -/
def NOISE_TOKENS : List String := ["missing"]

/-- `is_numeric_id(token)`: `token.isdigit() and len(token) >= 5`.  Python
`str.isdigit` demands a non-empty all-digit string. -/
def is_numeric_id (t : String) : Bool :=
  (!t.data.isEmpty && t.data.all Char.isDigit) && decide (5 ≤ t.length)

/-- The filter applied by `tokenize`:
`1 < len(t) <= 30 and t not in NOISE_TOKENS and not is_numeric_id(t)`. -/
def tokenFilter (t : String) : Bool :=
  (decide (1 < t.length) && decide (t.length ≤ 30)) &&
  !(NOISE_TOKENS.contains t) && !(is_numeric_id t)

/-- `tokenize(text)`: lower-case, take maximal runs of `[a-z0-9']`, and filter
out short/long tokens, noise tokens and numeric ids. -/
def tokenize (s : String) : List String :=
  ((extractRuns lexChar (s.data.map Char.toLower)).map String.mk).filter
    tokenFilter

/-- `basic_words(text)`: maximal runs of `[A-Za-z0-9']` whose lower-casing is
not a noise token. -/
def basic_words (s : String) : List String :=
  ((extractRuns wordLikeChar s.data).map String.mk).filter
    (fun w => !(NOISE_TOKENS.contains (String.mk (w.data.map Char.toLower))))

/-! ## `normalize_content` is idempotent -/

theorem matchUrl_nil : matchUrl [] = none := by decide

/-- A list with no occurrence of the URL pattern at any position. -/
def NoUrl (l : List Char) : Prop :=
  ∀ i < l.length, matchUrl (l.drop i) = none

theorem NoUrl_all {l : List Char} (h : NoUrl l) (i : ℕ) :
    matchUrl (l.drop i) = none := by
  by_cases hi : i < l.length
  · exact h i hi
  · rw [List.drop_eq_nil_of_le (le_of_not_lt hi)]
    exact matchUrl_nil

/-- If a prefix of the output of `urlSub` consists of non-space characters,
it is also a prefix of the input: `urlSub` only ever inserts spaces at the
places it rewrites. -/
theorem urlSub_append_nonspace :
    ∀ (l pre suf : List Char), urlSub l = pre ++ suf →
      (∀ c ∈ pre, isSpc c = false) → ∃ suf', l = pre ++ suf' := by
  intro l
  induction l with
  | nil =>
    intro pre suf h _
    rw [urlSub_nil] at h
    rw [List.nil_eq, List.append_eq_nil] at h
    exact ⟨[], by simp [h.1]⟩
  | cons c rest ih =>
    intro pre suf h hpre
    cases hm : matchUrl (c :: rest) with
    | some r =>
      rw [urlSub_match hm] at h
      cases pre with
      | nil => exact ⟨c :: rest, rfl⟩
      | cons p pre' =>
        exfalso
        have hp : p = ' ' := by
          have := congrArg (fun x => x.head?) h
          simpa using this.symm
        have := hpre p (by simp)
        rw [hp] at this
        simp [isSpc] at this
    | none =>
      rw [urlSub_nomatch hm] at h
      cases pre with
      | nil => exact ⟨c :: rest, rfl⟩
      | cons p pre' =>
        have hp : c = p ∧ urlSub rest = pre' ++ suf := by
          rw [List.cons_append] at h
          exact ⟨by injection h, by injection h⟩
        obtain ⟨suf', hs⟩ := ih pre' suf hp.2 (fun x hx => hpre x (by simp [hx]))
        exact ⟨suf', by rw [List.cons_append, ← hp.1, hs]⟩

theorem matchUrl_head {c : Char} {X r : List Char}
    (h : matchUrl (c :: X) = some r) : c = 'h' := by
  obtain ⟨sch, d, t, hsch, heq, -⟩ := matchUrl_some_shape h
  rcases hsch with h' | h' <;> subst h' <;>
    (simp [httpsChars, httpChars] at heq; exact heq.1)

theorem matchUrl_space_head (X : List Char) : matchUrl (' ' :: X) = none := by
  cases hm : matchUrl (' ' :: X) with
  | none => rfl
  | some r => exact absurd (matchUrl_head hm) (by decide)

/-- The output of `urlSub` contains no occurrence of the URL pattern:
re-running the substitution would find nothing to replace. -/
theorem urlSub_noUrl_aux :
    ∀ (n : ℕ) (l : List Char), l.length ≤ n →
      ∀ i, matchUrl ((urlSub l).drop i) = none := by
  intro n
  induction n with
  | zero =>
    intro l hl i
    have : l = [] := List.eq_nil_of_length_eq_zero (Nat.le_zero.mp hl)
    subst this
    simpa [urlSub_nil] using matchUrl_nil
  | succ n ih =>
    intro l hl i
    cases l with
    | nil => simpa [urlSub_nil] using matchUrl_nil
    | cons c rest =>
      cases hm : matchUrl (c :: rest) with
      | some r =>
        rw [urlSub_match hm]
        cases i with
        | zero => simpa using matchUrl_space_head (urlSub r)
        | succ i =>
          have hr : r.length ≤ n := by
            have h2 := matchUrl_length hm
            simp only [List.length_cons] at h2 hl
            omega
          simpa using ih r hr i
      | none =>
        rw [urlSub_nomatch hm]
        have hrest : rest.length ≤ n := by simpa using hl
        cases i with
        | zero =>
          simp only [List.drop_zero]
          cases hm2 : matchUrl (c :: urlSub rest) with
          | none => rfl
          | some r' =>
            exfalso
            obtain ⟨sch, d, t, hsch, heq, hd⟩ := matchUrl_some_shape hm2
            rcases hsch with h' | h' <;> subst h'
            · simp only [httpsChars, List.cons_append, List.nil_append,
                List.cons.injEq] at heq
              obtain ⟨hc, heq⟩ := heq
              have heq' : urlSub rest =
                  (['t', 't', 'p', 's', ':', '/', '/'] ++ [d]) ++ t := by
                simpa using heq
              obtain ⟨suf', hs⟩ := urlSub_append_nonspace rest _ t heq'
                (by
                  intro x hx
                  rcases List.mem_append.mp hx with h1 | h1
                  · fin_cases h1 <;> decide
                  · rw [List.mem_singleton.mp h1]; exact hd)
              have hrw : c :: rest = httpsChars ++ d :: suf' := by
                rw [hc, hs]; simp [httpsChars]
              rw [hrw] at hm
              exact matchUrl_of_shape (Or.inl rfl) hd hm
            · simp only [httpChars, List.cons_append, List.nil_append,
                List.cons.injEq] at heq
              obtain ⟨hc, heq⟩ := heq
              have heq' : urlSub rest =
                  (['t', 't', 'p', ':', '/', '/'] ++ [d]) ++ t := by
                simpa using heq
              obtain ⟨suf', hs⟩ := urlSub_append_nonspace rest _ t heq'
                (by
                  intro x hx
                  rcases List.mem_append.mp hx with h1 | h1
                  · fin_cases h1 <;> decide
                  · rw [List.mem_singleton.mp h1]; exact hd)
              have hrw : c :: rest = httpChars ++ d :: suf' := by
                rw [hc, hs]; simp [httpChars]
              rw [hrw] at hm
              exact matchUrl_of_shape (Or.inr rfl) hd hm
        | succ i => simpa using ih rest hrest i

theorem urlSub_noUrl (l : List Char) : NoUrl (urlSub l) :=
  fun i _ => urlSub_noUrl_aux l.length l le_rfl i

/-- On URL-free input, `urlSub` is the identity. -/
theorem noUrl_urlSub_id : ∀ {l : List Char}, NoUrl l → urlSub l = l := by
  intro l
  induction l with
  | nil => intro _; exact urlSub_nil
  | cons c rest ih =>
    intro h
    have h0 : matchUrl (c :: rest) = none := h 0 (by simp)
    rw [urlSub_nomatch h0]
    congr 1
    refine ih (fun i hi => ?_)
    simpa using h (i + 1) (by simpa using Nat.succ_lt_succ hi)

/-- A character list whose image under the zero-width-space replacement
contains no space is unchanged by it. -/
theorem zwspSub_fixed :
    ∀ {T x : List Char}, (∀ c ∈ T, c ≠ ' ') → zwspSub x = T → x = T := by
  intro T
  induction T with
  | nil =>
    intro x _ h
    simpa [zwspSub] using h
  | cons a T' ih =>
    intro x hT h
    cases x with
    | nil => simp [zwspSub] at h
    | cons b x' =>
      simp only [zwspSub, List.map_cons, List.cons.injEq] at h
      obtain ⟨hb, hx'⟩ := h
      have hba : b = a := by
        by_cases hz : b = zwspChar
        · rw [hz] at hb
          simp at hb
          exact absurd hb.symm (hT a (by simp))
        · simpa [hz] using hb
      have := ih (fun c hc => hT c (by simp [hc])) hx'
      rw [hba, this]

theorem zwspSub_noUrl {l : List Char} (h : NoUrl l) : NoUrl (zwspSub l) := by
  intro i hi
  cases hm : matchUrl ((zwspSub l).drop i) with
  | none => rfl
  | some r =>
    exfalso
    rw [show (zwspSub l).drop i = zwspSub (l.drop i) from by
      simp [zwspSub, List.map_drop]] at hm
    obtain ⟨sch, d, t, hsch, heq, hd⟩ := matchUrl_some_shape hm
    rw [show sch ++ d :: t = (sch ++ [d]) ++ t from by simp] at heq
    unfold zwspSub at heq
    rw [List.map_eq_append_iff] at heq
    obtain ⟨x1, x2, hx, h1, h2⟩ := heq
    have hd' : d ≠ ' ' := by
      intro hcon
      rw [hcon] at hd
      simp [isSpc] at hd
    have hx1 : x1 = sch ++ [d] := by
      refine zwspSub_fixed (fun c hc => ?_) h1
      rcases List.mem_append.mp hc with hc | hc
      · rcases hsch with h' | h' <;> subst h' <;> (fin_cases hc <;> decide)
      · rw [List.mem_singleton.mp hc]; exact hd'
    have : matchUrl (l.drop i) ≠ none := by
      rw [hx, hx1, show (sch ++ [d]) ++ x2 = sch ++ d :: x2 from by simp]
      exact matchUrl_of_shape hsch hd
    exact this (NoUrl_all h i)

theorem NoUrl_of_parts {l u m v : List Char} (h : NoUrl l)
    (heq : l = u ++ (m ++ v)) : NoUrl m := by
  intro i hi
  cases hm : matchUrl (m.drop i) with
  | none => rfl
  | some r =>
    exfalso
    obtain ⟨sch, d, t, hsch, hsh, hd⟩ := matchUrl_some_shape hm
    have hdrop : l.drop (u.length + i) = m.drop i ++ v := by
      rw [heq, List.drop_append, List.drop_append_of_le_length (le_of_lt hi)]
    have h2 : matchUrl (l.drop (u.length + i)) ≠ none := by
      rw [hdrop, hsh, show (sch ++ d :: t) ++ v = sch ++ d :: (t ++ v) from by simp]
      exact matchUrl_of_shape hsch hd
    exact h2 (NoUrl_all h _)

/-- `pyStrip l` is a contiguous piece of `l`. -/
theorem pyStrip_decomp (l : List Char) :
    l = l.takeWhile isSpc ++
      (pyStrip l ++ ((l.dropWhile isSpc).reverse.takeWhile isSpc).reverse) := by
  conv_lhs => rw [← List.takeWhile_append_dropWhile isSpc l]
  congr 1
  conv_lhs => rw [← List.reverse_reverse (l.dropWhile isSpc)]
  conv_lhs =>
    rw [← List.takeWhile_append_dropWhile isSpc (l.dropWhile isSpc).reverse]
  rw [List.reverse_append]
  rfl

theorem pyStrip_noUrl {l : List Char} (h : NoUrl l) : NoUrl (pyStrip l) :=
  NoUrl_of_parts h (pyStrip_decomp l)

theorem pyStrip_mem {l : List Char} {c : Char} (hc : c ∈ pyStrip l) : c ∈ l := by
  rw [pyStrip_decomp l]
  simp [hc]

theorem zwspSub_no_zwsp (l : List Char) : ∀ c ∈ zwspSub l, c ≠ zwspChar := by
  intro c hc
  simp only [zwspSub, List.mem_map] at hc
  obtain ⟨a, -, ha⟩ := hc
  by_cases hz : a = zwspChar
  · rw [hz] at ha; rw [← ha]; decide
  · rw [← ha]; simpa [hz] using hz

theorem zwspSub_id {l : List Char} (h : ∀ c ∈ l, c ≠ zwspChar) :
    zwspSub l = l := by
  induction l with
  | nil => rfl
  | cons c rest ih =>
    simp only [zwspSub, List.map_cons]
    rw [if_neg (h c (by simp))]
    have := ih (fun x hx => h x (by simp [hx]))
    simp only [zwspSub] at this
    rw [this]

theorem dropWhile_cons_head {p : Char → Bool} {l : List Char} {c : Char}
    {t : List Char} (h : l.dropWhile p = c :: t) : p c = false := by
  have := List.head_dropWhile_not p l
  rw [h] at this
  simpa using this

theorem lstrip_rstrip_lstrip (l : List Char) :
    lstrip (rstrip (lstrip l)) = rstrip (lstrip l) := by
  cases hr : rstrip (lstrip l) with
  | nil => rfl
  | cons c t =>
    have hmem : rstrip (lstrip l) ++
        ((lstrip l).reverse.takeWhile isSpc).reverse = lstrip l := by
      rw [rstrip, ← List.reverse_append,
        List.takeWhile_append_dropWhile isSpc (lstrip l).reverse,
        List.reverse_reverse]
    have hhead := hmem.symm
    rw [hr, List.cons_append] at hhead
    have hc : isSpc c = false :=
      dropWhile_cons_head (show List.dropWhile isSpc l = _ from hhead)
    simp [lstrip, List.dropWhile_cons, hc]

theorem rstrip_rstrip (l : List Char) : rstrip (rstrip l) = rstrip l := by
  unfold rstrip
  rw [List.reverse_reverse, List.dropWhile_idempotent]

theorem pyStrip_idem (l : List Char) : pyStrip (pyStrip l) = pyStrip l := by
  unfold pyStrip
  rw [lstrip_rstrip_lstrip, rstrip_rstrip]

theorem normalizeChars_noUrl (l : List Char) : NoUrl (normalizeChars l) :=
  pyStrip_noUrl (zwspSub_noUrl (urlSub_noUrl l))

theorem normalizeChars_no_zwsp (l : List Char) :
    ∀ c ∈ normalizeChars l, c ≠ zwspChar :=
  fun c hc => zwspSub_no_zwsp (urlSub l) c (pyStrip_mem hc)

theorem normalizeChars_stripped (l : List Char) :
    pyStrip (normalizeChars l) = normalizeChars l :=
  pyStrip_idem _

/-- `normalizeChars` is idempotent. -/
theorem normalizeChars_idem (l : List Char) :
    normalizeChars (normalizeChars l) = normalizeChars l := by
  conv_lhs => rw [normalizeChars]
  rw [noUrl_urlSub_id (normalizeChars_noUrl l),
    zwspSub_id (normalizeChars_no_zwsp l),
    normalizeChars_stripped]

/-- On input with no URL occurrence and no zero-width space,
`normalizeChars` only strips. -/
theorem normalizeChars_noop {l : List Char} (h1 : NoUrl l)
    (h2 : ∀ c ∈ l, c ≠ zwspChar) : normalizeChars l = pyStrip l := by
  rw [normalizeChars, noUrl_urlSub_id h1, zwspSub_id h2]

/-! ## Claim C6 -/

/-- C6: `normalize_content` is idempotent, and on any string containing no
occurrence of the HTTP(S) URL pattern and no zero-width-space character it
returns the input unchanged except for removal of leading and trailing
whitespace. -/
theorem C6_normalize_idempotent_and_noop :
    (∀ s : String,
      normalize_content (normalize_content s) = normalize_content s) ∧
    (∀ s : String, NoUrl s.data → (∀ c ∈ s.data, c ≠ zwspChar) →
      normalize_content s = pyStripStr s) := by
  constructor
  · intro s
    show String.mk (normalizeChars (normalizeChars s.data)) =
      String.mk (normalizeChars s.data)
    rw [normalizeChars_idem]
  · intro s h1 h2
    show String.mk (normalizeChars s.data) = String.mk (pyStrip s.data)
    rw [normalizeChars_noop h1 h2]

/-- Witness for C6 at concrete inputs. -/
theorem C6_normalize_idempotent_and_noop_witness :
    normalize_content (normalize_content "see https://a.io now") =
      normalize_content "see https://a.io now" ∧
    normalize_content "  hi there  " = pyStripStr "  hi there  " :=
  ⟨C6_normalize_idempotent_and_noop.1 "see https://a.io now",
   C6_normalize_idempotent_and_noop.2 "  hi there  "
     (by unfold NoUrl; decide) (by decide)⟩

/-! ## Claim C5 -/

/-- C5: every token returned by `tokenize` has length strictly greater
than 1 and at most 30, is not in the noise set, and is not a purely numeric
string of length at least 5; the token sequence is a subsequence of the raw
run stream of the lower-cased text, so reading order is preserved and
duplicates are retained. -/
theorem C5_tokenize_tokens_filtered :
    ∀ s : String,
      (∀ t ∈ tokenize s, 1 < t.length ∧ t.length ≤ 30 ∧
        t ∉ NOISE_TOKENS ∧ is_numeric_id t = false) ∧
      List.Sublist (tokenize s)
        ((extractRuns lexChar (s.data.map Char.toLower)).map String.mk) := by
  intro s
  refine ⟨?_, List.filter_sublist _⟩
  intro t ht
  have hf := List.of_mem_filter ht
  simp only [tokenFilter, Bool.and_eq_true, decide_eq_true_eq,
    Bool.not_eq_true'] at hf
  exact ⟨hf.1.1.1, hf.1.1.2, by simpa using hf.1.2, hf.2⟩

/-- Witness for C5 at a concrete input. -/
theorem C5_tokenize_tokens_filtered_witness :
    "hello" ∈ tokenize "Hello world!! 1234567 a xx" ∧
    (1 < "hello".length ∧ "hello".length ≤ 30 ∧
      "hello" ∉ NOISE_TOKENS ∧ is_numeric_id "hello" = false) :=
  ⟨by decide,
   (C5_tokenize_tokens_filtered "Hello world!! 1234567 a xx").1 "hello"
     (by decide)⟩

/-! ## TF-IDF (`compute_tfidf`) -/

/-- A Python `Counter` with string keys, as an association list of
key/count pairs. -/
abbrev Cnt := List (String × ℕ)

/-- The document-frequency table of `compute_tfidf`
(`df.update(counts.keys())` over all documents, then `df[token]`): the
number of documents whose counter has the token as a key. -/
def dfCount (docs : List (String × Cnt)) (t : String) : ℕ :=
  (docs.filter (fun p => p.2.any (fun q => q.1 == t))).length

/-- `max(counts.values()) if counts else 1`. -/
def maxTf (c : Cnt) : ℕ :=
  match c.map Prod.snd with
  | [] => 1
  | v :: vs => vs.foldl max v

/-- The weight the inner loop of `compute_tfidf` assigns one token:
`(tf / max_tf) * (log((1 + doc_count) / (1 + df[token])) + 1.0)`. -/
noncomputable def tokenWeight (D df mx tf : ℕ) : ℝ :=
  ((tf : ℝ) / (mx : ℝ)) * (Real.log ((1 + (D : ℝ)) / (1 + (df : ℝ))) + 1.0)

/-- `compute_tfidf(doc_tokens)`: for each document, each token's count is
normalized by the document's maximal count and scaled by the smoothed
inverse document frequency. -/
noncomputable def compute_tfidf (docs : List (String × Cnt)) :
    List (String × List (String × ℝ)) :=
  docs.map (fun p =>
    (p.1, p.2.map (fun q =>
      (q.1, tokenWeight docs.length (dfCount docs q.1) (maxTf p.2) q.2))))

/-- Document frequency as the specification words it: the number of
authors whose counter contains the token at least once (not weighted by
count). -/
def specDf (docs : List (String × Cnt)) (t : String) : ℕ :=
  (docs.filter (fun p => p.2.any (fun q => q.1 == t && decide (1 ≤ q.2)))).length

theorem dfCount_eq_specDf (docs : List (String × Cnt)) (t : String)
    (hpos : ∀ p ∈ docs, ∀ q ∈ p.2, 1 ≤ q.2) :
    dfCount docs t = specDf docs t := by
  unfold dfCount specDf
  congr 1
  apply List.filter_congr
  intro p hp
  have hb : ∀ (b1 b2 : Bool), (b1 = true ↔ b2 = true) → b1 = b2 := by decide
  apply hb
  simp only [List.any_eq_true, Bool.and_eq_true, beq_iff_eq, decide_eq_true_eq]
  constructor
  · rintro ⟨q, hq, hqt⟩
    exact ⟨q, hq, hqt, hpos p hp q hq⟩
  · rintro ⟨q, hq, hqt, -⟩
    exact ⟨q, hq, hqt⟩

/-! ## Claim C1 -/

/-- C1: on a family of term-frequency counters with positive counts (the
only kind the aggregation loop builds), `compute_tfidf` assigns each
author/token pair the weight
`(tf_a(t) / max tf_a) * (ln((1+D)/(1+df(t))) + 1)` where `D` is the number
of authors and `df(t)` counts the authors holding `t` at least once; the
maximal term frequency of an empty counter defaults to 1 and an empty
counter yields an empty weight map. -/
theorem C1_compute_tfidf_formula (docs : List (String × Cnt))
    (hpos : ∀ p ∈ docs, ∀ q ∈ p.2, 1 ≤ q.2) :
    compute_tfidf docs = docs.map (fun p =>
      (p.1, p.2.map (fun q => (q.1,
        ((q.2 : ℝ) / (maxTf p.2 : ℝ)) *
          (Real.log ((1 + (docs.length : ℝ)) / (1 + (specDf docs q.1 : ℝ)))
            + 1.0))))) ∧
    maxTf [] = 1 ∧
    (∀ p ∈ docs, p.2 = [] →
      (p.1, ([] : List (String × ℝ))) ∈ compute_tfidf docs) := by
  refine ⟨?_, rfl, ?_⟩
  · unfold compute_tfidf
    apply List.map_congr_left
    intro p hp
    congr 1
    apply List.map_congr_left
    intro q hq
    congr 1
    unfold tokenWeight
    rw [dfCount_eq_specDf docs q.1 hpos]
  · intro p hp hempty
    unfold compute_tfidf
    refine List.mem_map.mpr ⟨p, hp, ?_⟩
    simp [hempty]

/-- Witness for C1 at a concrete counter family. -/
theorem C1_compute_tfidf_formula_witness :
    compute_tfidf [("a", [("gg", 2), ("hi", 1)]), ("b", [("gg", 1)]), ("c", [])]
      = [("a", [("gg", 2), ("hi", 1)]), ("b", [("gg", 1)]), ("c", [])].map
        (fun p => (p.1, p.2.map (fun q => (q.1,
          ((q.2 : ℝ) / (maxTf p.2 : ℝ)) *
            (Real.log ((1 + (([("a", [("gg", 2), ("hi", 1)]), ("b", [("gg", 1)]),
              ("c", [])].length : ℕ) : ℝ)) /
              (1 + ((specDf [("a", [("gg", 2), ("hi", 1)]), ("b", [("gg", 1)]),
                ("c", [])] q.1 : ℕ) : ℝ))) + 1.0))))) ∧
    maxTf [] = 1 ∧
    (∀ p ∈ [("a", [("gg", 2), ("hi", 1)]), ("b", [("gg", 1)]), ("c", [])],
      p.2 = [] → (p.1, ([] : List (String × ℝ))) ∈
        compute_tfidf [("a", [("gg", 2), ("hi", 1)]), ("b", [("gg", 1)]), ("c", [])]) :=
  C1_compute_tfidf_formula _ (by decide)

/-! ## Claim C3 -/

theorem foldl_max_init (vs : List ℕ) (a : ℕ) : a ≤ vs.foldl max a := by
  induction vs generalizing a with
  | nil => exact le_rfl
  | cons v vs ih => exact le_trans (le_max_left a v) (ih (max a v))

theorem foldl_max_mem {vs : List ℕ} {x : ℕ} (a : ℕ) (hx : x ∈ vs) :
    x ≤ vs.foldl max a := by
  induction vs generalizing a with
  | nil => cases hx
  | cons v vs ih =>
    rcases List.mem_cons.mp hx with h | h
    · subst h
      exact le_trans (le_max_right a x) (foldl_max_init vs (max a x))
    · exact ih (max a v) h

theorem le_maxTf {c : Cnt} {q : String × ℕ} (hq : q ∈ c) : q.2 ≤ maxTf c := by
  unfold maxTf
  cases c with
  | nil => cases hq
  | cons p rest =>
    simp only [List.map_cons]
    rcases List.mem_cons.mp hq with h | h
    · subst h
      exact foldl_max_init _ _
    · exact foldl_max_mem _ (List.mem_map_of_mem Prod.snd h)

/-- C3 (amended with a corpus of at least two authors): a token present in
every author's counter (`df = D`) receives a strictly lower weight than a
token present in exactly one author's counter, at equal term frequency and
equal per-author maximal term frequency. -/
theorem C3_ubiquitous_token_weighs_less (docs : List (String × Cnt))
    (a : String) (c : Cnt) (t1 t2 : String) (n : ℕ)
    (hmem : (a, c) ∈ docs) (h1 : (t1, n) ∈ c) (h2 : (t2, n) ∈ c)
    (hn : 1 ≤ n) (hdf1 : dfCount docs t1 = docs.length)
    (hdf2 : dfCount docs t2 = 1) (hD : 2 ≤ docs.length) :
    tokenWeight docs.length (dfCount docs t1) (maxTf c) n <
      tokenWeight docs.length (dfCount docs t2) (maxTf c) n := by
  rw [hdf1, hdf2]
  unfold tokenWeight
  have hm : 1 ≤ maxTf c := le_trans hn (le_maxTf h1)
  have hmR : (0 : ℝ) < (maxTf c : ℝ) := by exact_mod_cast hm
  have hnR : (0 : ℝ) < (n : ℝ) := by exact_mod_cast hn
  have hfrac : (0 : ℝ) < (n : ℝ) / (maxTf c : ℝ) := div_pos hnR hmR
  have hDR : (2 : ℝ) ≤ (docs.length : ℝ) := by exact_mod_cast hD
  have hself : Real.log ((1 + (docs.length : ℝ)) / (1 + (docs.length : ℝ))) = 0 := by
    rw [div_self (by positivity)]
    exact Real.log_one
  have hrare : 0 < Real.log ((1 + (docs.length : ℝ)) / (1 + (1 : ℕ))) := by
    apply Real.log_pos
    rw [lt_div_iff (by norm_num)]
    push_cast
    linarith
  rw [hself]
  apply mul_lt_mul_of_pos_left _ hfrac
  push_cast at hrare ⊢
  linarith

/-- The original C3 fails on a one-author corpus: there the one token has
document frequency equal both to the number of authors and to 1, and its
weight is not strictly lower than itself. -/
theorem C3_counterexample :
    dfCount [("a", [("gg", 1)])] "gg" = [("a", [("gg", 1)])].length ∧
    dfCount [("a", [("gg", 1)])] "gg" = 1 ∧
    ¬(tokenWeight [("a", [("gg", 1)])].length (dfCount [("a", [("gg", 1)])] "gg")
        (maxTf [("gg", 1)]) 1 <
      tokenWeight [("a", [("gg", 1)])].length (dfCount [("a", [("gg", 1)])] "gg")
        (maxTf [("gg", 1)]) 1) :=
  ⟨by decide, by decide, lt_irrefl _⟩

/-- Witness for the amended C3 at a concrete two-author corpus. -/
theorem C3_ubiquitous_token_weighs_less_witness :
    tokenWeight [("a", [("gg", 1), ("hi", 1)]), ("b", [("gg", 1)])].length
        (dfCount [("a", [("gg", 1), ("hi", 1)]), ("b", [("gg", 1)])] "gg")
        (maxTf [("gg", 1), ("hi", 1)]) 1 <
      tokenWeight [("a", [("gg", 1), ("hi", 1)]), ("b", [("gg", 1)])].length
        (dfCount [("a", [("gg", 1), ("hi", 1)]), ("b", [("gg", 1)])] "hi")
        (maxTf [("gg", 1), ("hi", 1)]) 1 :=
  C3_ubiquitous_token_weighs_less _ "a" _ "gg" "hi" 1
    (by decide) (by decide) (by decide) (by decide) (by decide) (by decide)
    (by decide)

/-! ## Cosine similarity -/

/-- A TF-IDF weight map (Python `Dict[str, float]`) as an association
list. -/
abbrev WMap := List (String × ℝ)

/-- Dictionary lookup (`vec[k]`, with default `0.0` for `weights.get`). -/
def lookupW : WMap → String → ℝ
  | [], _ => 0
  | p :: rest, k => if p.1 = k then p.2 else lookupW rest k

/-- The key set of a weight map (`set(vec.keys())`). -/
def keyset (v : WMap) : Finset String := (v.map Prod.fst).toFinset

/-- The dot product over the intersection of the key sets
(`sum(vec_a[k] * vec_b[k] for k in common)`). -/
noncomputable def dotW (a b : WMap) : ℝ :=
  ∑ k ∈ (keyset a ∩ keyset b), lookupW a k * lookupW b k

/-- The full L2 norm over a map's own values
(`math.sqrt(sum(v * v for v in vec.values()))`). -/
noncomputable def normL2 (v : WMap) : ℝ :=
  Real.sqrt ((v.map (fun p => p.2 * p.2)).sum)

/-- `cosine_similarity(vec_a, vec_b)`. -/
noncomputable def cosine_similarity (a b : WMap) : ℝ :=
  if a.isEmpty || b.isEmpty then 0
  else if normL2 a = 0 ∨ normL2 b = 0 then 0
  else dotW a b / (normL2 a * normL2 b)

theorem sum_keyset_eq_list_sum {v : WMap} (hnd : (v.map Prod.fst).Nodup) :
    ∑ k ∈ keyset v, lookupW v k * lookupW v k =
      (v.map (fun p => p.2 * p.2)).sum := by
  induction v with
  | nil => simp [keyset]
  | cons p rest ih =>
    simp only [List.map_cons, List.nodup_cons] at hnd
    obtain ⟨hp, hrest⟩ := hnd
    have hk : keyset (p :: rest) = insert p.1 (keyset rest) := by
      simp [keyset]
    have hni : p.1 ∉ keyset rest := by simpa [keyset] using hp
    rw [hk, Finset.sum_insert hni]
    have hhead : lookupW (p :: rest) p.1 = p.2 := by simp [lookupW]
    have htail : ∀ k ∈ keyset rest,
        lookupW (p :: rest) k * lookupW (p :: rest) k =
          lookupW rest k * lookupW rest k := by
      intro k hkk
      have hne : p.1 ≠ k := by
        intro hcon
        exact hni (hcon ▸ hkk)
      simp [lookupW, hne]
    rw [Finset.sum_congr rfl htail, ih hrest, hhead]
    simp

theorem dotW_comm (a b : WMap) : dotW a b = dotW b a := by
  unfold dotW
  rw [Finset.inter_comm]
  exact Finset.sum_congr rfl (fun k _ => mul_comm _ _)

theorem normL2_nonneg_sum (v : WMap) :
    0 ≤ (v.map (fun p => p.2 * p.2)).sum := by
  apply List.sum_nonneg
  intro x hx
  obtain ⟨p, -, rfl⟩ := List.mem_map.mp hx
  exact mul_self_nonneg _

/-! ## Claim C2 -/

/-- C2 (amended: self-similarity requires a nonzero norm): cosine
similarity is symmetric; on a dictionary-shaped (distinct-key) non-empty
map with nonzero norm, self-similarity is exactly 1; similarity with an
empty map is 0; the result is 0 when either map is empty or has zero norm,
and otherwise equals the intersection dot product divided by the product of
the full L2 norms. -/
theorem C2_cosine_similarity_props :
    (∀ a b : WMap, cosine_similarity a b = cosine_similarity b a) ∧
    (∀ v : WMap, (v.map Prod.fst).Nodup → v ≠ [] → normL2 v ≠ 0 →
      cosine_similarity v v = 1) ∧
    (∀ v : WMap, cosine_similarity v [] = 0 ∧ cosine_similarity [] v = 0) ∧
    (∀ a b : WMap, a = [] ∨ b = [] ∨ normL2 a = 0 ∨ normL2 b = 0 →
      cosine_similarity a b = 0) ∧
    (∀ a b : WMap, a ≠ [] → b ≠ [] → normL2 a ≠ 0 → normL2 b ≠ 0 →
      cosine_similarity a b = dotW a b / (normL2 a * normL2 b)) := by
  refine ⟨?_, ?_, ?_, ?_, ?_⟩
  · intro a b
    unfold cosine_similarity
    rw [dotW_comm, Bool.or_comm]
    by_cases he : (b.isEmpty || a.isEmpty) = true
    · rw [if_pos he, if_pos he]
    · rw [if_neg he, if_neg he]
      by_cases hn : normL2 a = 0 ∨ normL2 b = 0
      · rw [if_pos hn, if_pos (Or.symm hn)]
      · rw [if_neg hn, if_neg (fun h => hn (Or.symm h)), mul_comm]
  · intro v hnd hne hnorm
    unfold cosine_similarity
    rw [if_neg (by simp [List.isEmpty_iff, hne]), if_neg (by simp [hnorm])]
    have hS : dotW v v = (v.map (fun p => p.2 * p.2)).sum := by
      unfold dotW
      rw [Finset.inter_self]
      exact sum_keyset_eq_list_sum hnd
    have hSne : (v.map (fun p => p.2 * p.2)).sum ≠ 0 := by
      intro h0
      apply hnorm
      unfold normL2
      rw [h0, Real.sqrt_zero]
    unfold normL2
    rw [hS, Real.mul_self_sqrt (normL2_nonneg_sum v)]
    exact div_self hSne
  · intro v
    constructor
    · unfold cosine_similarity
      rw [if_pos (by simp)]
    · unfold cosine_similarity
      rw [if_pos (by simp)]
  · intro a b h
    unfold cosine_similarity
    rcases h with h | h | h | h
    · rw [if_pos (by simp [h])]
    · rw [if_pos (by simp [h])]
    · by_cases he : (a.isEmpty || b.isEmpty) = true
      · rw [if_pos he]
      · rw [if_neg he, if_pos (Or.inl h)]
    · by_cases he : (a.isEmpty || b.isEmpty) = true
      · rw [if_pos he]
      · rw [if_neg he, if_pos (Or.inr h)]
  · intro a b h1 h2 h3 h4
    unfold cosine_similarity
    rw [if_neg (by simp [List.isEmpty_iff, h1, h2]),
      if_neg (by simp [h3, h4])]

/-- The original C2 is false as stated: a non-empty all-zero weight map has
self-similarity 0, not 1. -/
theorem C2_counterexample :
    ([("a", (0 : ℝ))] : WMap) ≠ [] ∧
    cosine_similarity [("a", (0 : ℝ))] [("a", (0 : ℝ))] = 0 ∧
    (0 : ℝ) ≠ 1 := by
  refine ⟨by simp, ?_, by norm_num⟩
  unfold cosine_similarity
  rw [if_neg (by simp), if_pos]
  left
  unfold normL2
  simp

/-- Witness for C2 at concrete weight maps. -/
theorem C2_cosine_similarity_props_witness :
    cosine_similarity [("x", (2 : ℝ))] [("x", (2 : ℝ))] = 1 ∧
    cosine_similarity [("x", (2 : ℝ))] [] = 0 :=
  ⟨C2_cosine_similarity_props.2.1 [("x", (2 : ℝ))] (by simp) (by simp)
      (by
        unfold normL2
        simp only [List.map_cons, List.map_nil, List.sum_cons, List.sum_nil]
        rw [Real.sqrt_ne_zero']
        norm_num),
   (C2_cosine_similarity_props.2.2.1 [("x", (2 : ℝ))]).1⟩

/-! ## Percentiles -/

/-- Python list indexing (`xs[i]`, negative indices counting from the
end).  Out-of-range reads, which `percentile` never performs on the inputs
covered here, default to 0. -/
def pyIndex (s : List ℤ) (i : ℤ) : ℤ :=
  if 0 ≤ i then s.getD i.toNat 0 else s.getD (s.length + i).toNat 0

/-- Python `int()` truncation toward zero on a float. -/
noncomputable def pyTrunc (x : ℝ) : ℤ := if 0 ≤ x then ⌊x⌋ else ⌈x⌉

/-- `percentile(data, pct)`: sort ascending; with the interpolation rank
`k = (n - 1) * pct`, return `sorted_data[int(k)]` when `floor(k)` and
`ceil(k)` agree, and interpolate linearly between the floor- and
ceiling-indexed elements otherwise; empty data yields 0. -/
noncomputable def percentile (data : List ℤ) (pct : ℝ) : ℝ :=
  if data.isEmpty then 0
  else
    let s := data.insertionSort (· ≤ ·)
    let k : ℝ := ((s.length : ℝ) - 1) * pct
    let low : ℤ := ⌊k⌋
    let high : ℤ := ⌈k⌉
    if low = high then ((pyIndex s (pyTrunc k) : ℤ) : ℝ)
    else ((pyIndex s low : ℤ) : ℝ) +
      (((pyIndex s high : ℤ) : ℝ) - ((pyIndex s low : ℤ) : ℝ)) * (k - (low : ℝ))

/-- On non-empty data and `p ∈ [0, 1]`, `percentile` is the single linear
interpolation formula over any ascending sort of the data (the two branches
collapse, since `k = ⌊k⌋` forces the interpolation term to vanish). -/
theorem percentile_interp (data : List ℤ) (p : ℝ) (s : List ℤ)
    (hne : data ≠ []) (h0 : 0 ≤ p) (h1 : p ≤ 1)
    (hperm : data.Perm s) (hsort : s.Sorted (· ≤ ·)) :
    percentile data p =
      ((pyIndex s ⌊((s.length : ℝ) - 1) * p⌋ : ℤ) : ℝ) +
        (((pyIndex s ⌈((s.length : ℝ) - 1) * p⌉ : ℤ) : ℝ) -
          ((pyIndex s ⌊((s.length : ℝ) - 1) * p⌋ : ℤ) : ℝ)) *
        (((s.length : ℝ) - 1) * p - ((⌊((s.length : ℝ) - 1) * p⌋ : ℤ) : ℝ)) := by
  have hs : data.insertionSort (· ≤ ·) = s :=
    List.eq_of_perm_of_sorted ((List.perm_insertionSort _ data).trans hperm)
      (List.sorted_insertionSort _ data) hsort
  have hlen : 1 ≤ s.length := by
    have : data.length = s.length := hperm.length_eq
    cases hd : data with
    | nil => exact absurd hd hne
    | cons a t =>
      rw [hd] at this
      simp only [List.length_cons] at this
      omega
  have hk0 : 0 ≤ ((s.length : ℝ) - 1) * p := by
    apply mul_nonneg _ h0
    have : (1 : ℝ) ≤ (s.length : ℝ) := by exact_mod_cast hlen
    linarith
  unfold percentile
  rw [if_neg (by simp [List.isEmpty_iff, hne])]
  simp only [hs]
  by_cases hfc : ⌊((s.length : ℝ) - 1) * p⌋ = ⌈((s.length : ℝ) - 1) * p⌉
  · rw [if_pos hfc]
    have hkfl : ((⌊((s.length : ℝ) - 1) * p⌋ : ℤ) : ℝ) = ((s.length : ℝ) - 1) * p := by
      refine le_antisymm (Int.floor_le _) ?_
      rw [hfc]
      exact Int.le_ceil _
    have htr : pyTrunc (((s.length : ℝ) - 1) * p) = ⌊((s.length : ℝ) - 1) * p⌋ := by
      unfold pyTrunc
      rw [if_pos hk0]
    rw [htr, hkfl]
    ring_nf
  · rw [if_neg hfc]

/-! ## Claim C4 -/

/-- C4: `percentile` of the empty list is 0 for every fraction; of a
singleton it is that element for every fraction in `[0, 1]`;
`percentile([1, 2, 3, 4], 0.5) = 2.5`; and in general, on non-empty data
and `p ∈ [0, 1]`, it equals the linear interpolation between the floor- and
ceiling-ranked elements of the ascending sort at rank `k = (n - 1) * p`. -/
theorem C4_percentile_formula :
    (∀ p : ℝ, percentile [] p = 0) ∧
    (∀ p : ℝ, 0 ≤ p → p ≤ 1 → percentile [5] p = 5) ∧
    percentile [1, 2, 3, 4] (1 / 2) = 5 / 2 ∧
    (∀ (data : List ℤ) (p : ℝ) (s : List ℤ), data ≠ [] → 0 ≤ p → p ≤ 1 →
      data.Perm s → s.Sorted (· ≤ ·) →
      percentile data p =
        ((pyIndex s ⌊((s.length : ℝ) - 1) * p⌋ : ℤ) : ℝ) +
          (((pyIndex s ⌈((s.length : ℝ) - 1) * p⌉ : ℤ) : ℝ) -
            ((pyIndex s ⌊((s.length : ℝ) - 1) * p⌋ : ℤ) : ℝ)) *
          (((s.length : ℝ) - 1) * p - ((⌊((s.length : ℝ) - 1) * p⌋ : ℤ) : ℝ))) := by
  refine ⟨?_, ?_, ?_, fun data p s => percentile_interp data p s⟩
  · intro p
    unfold percentile
    rw [if_pos (by decide)]
  · intro p h0 h1
    have h := percentile_interp [5] p [5] (by decide) h0 h1
      (List.Perm.refl _) (by simp)
    rw [h]
    have hk : ((([5] : List ℤ).length : ℝ) - 1) * p = 0 := by
      simp
    rw [hk]
    norm_num [pyIndex]
  · have h := percentile_interp [1, 2, 3, 4] (1 / 2) [1, 2, 3, 4]
      (by decide) (by norm_num) (by norm_num) (List.Perm.refl _) (by decide)
    rw [h]
    have hk : ((([1, 2, 3, 4] : List ℤ).length : ℝ) - 1) * (1 / 2) = 3 / 2 := by
      norm_num
    rw [hk]
    have hfl : ⌊(3 / 2 : ℝ)⌋ = 1 := by norm_num
    have hce : ⌈(3 / 2 : ℝ)⌉ = 2 := by
      rw [Int.ceil_eq_iff]
      norm_num
    rw [hfl, hce, show pyIndex [1, 2, 3, 4] 1 = 2 from by decide,
      show pyIndex [1, 2, 3, 4] 2 = 3 from by decide]
    norm_num

/-- Witness for C4 at concrete data. -/
theorem C4_percentile_formula_witness :
    percentile [] (3 / 4) = 0 ∧
    percentile [5] (3 / 4) = 5 ∧
    percentile [1, 2, 3, 4] (1 / 2) = 5 / 2 ∧
    percentile [3, 1] (1 / 2) =
      ((pyIndex [1, 3] ⌊((([1, 3] : List ℤ).length : ℝ) - 1) * (1 / 2)⌋ : ℤ) : ℝ) +
        (((pyIndex [1, 3] ⌈((([1, 3] : List ℤ).length : ℝ) - 1) * (1 / 2)⌉ : ℤ) : ℝ) -
          ((pyIndex [1, 3] ⌊((([1, 3] : List ℤ).length : ℝ) - 1) * (1 / 2)⌋ : ℤ) : ℝ)) *
        (((([1, 3] : List ℤ).length : ℝ) - 1) * (1 / 2) -
          ((⌊((([1, 3] : List ℤ).length : ℝ) - 1) * (1 / 2)⌋ : ℤ) : ℝ)) :=
  ⟨C4_percentile_formula.1 (3 / 4),
   C4_percentile_formula.2.1 (3 / 4) (by norm_num) (by norm_num),
   C4_percentile_formula.2.2.1,
   C4_percentile_formula.2.2.2 [3, 1] (1 / 2) [1, 3] (by decide) (by norm_num)
     (by norm_num) (by decide) (by decide)⟩

/-! ## Representative-message selection -/

/-- The per-message score of the selectors:
`sum(weights.get(t, 0.0) for t in toks) / len(toks)`. -/
noncomputable def msgScore (w : WMap) (toks : List String) : ℝ :=
  (toks.map (lookupW w)).sum / (toks.length : ℝ)

/-- The score `pick_representative_message` assigns one raw message. -/
noncomputable def repScore (w : WMap) (m : String) : ℝ :=
  msgScore w (tokenize (normalize_content m))

/-- A message qualifies for selection when it has at least one lexical
token after normalization. -/
def repQual (m : String) : Prop := tokenize (normalize_content m) ≠ []

/-- The `best`/`best_score` scan of `pick_representative_message`. -/
noncomputable def pickRepAux (w : WMap) :
    List String → Option String → ℝ → Option String
  | [], best, _ => best
  | m :: rest, best, bs =>
    if tokenize (normalize_content m) = [] then pickRepAux w rest best bs
    else if bs < repScore w m then pickRepAux w rest (some m) (repScore w m)
    else pickRepAux w rest best bs

/-- `pick_representative_message(messages, weights)`: starts from
`best = None`, `best_score = 0.0` and keeps the first message whose score
strictly exceeds the running best. -/
noncomputable def pick_representative_message (msgs : List String)
    (w : WMap) : Option String :=
  pickRepAux w msgs none 0

theorem pickRepAux_some_ne_none (w : WMap) :
    ∀ (msgs : List String) (b : String) (bs : ℝ),
      pickRepAux w msgs (some b) bs ≠ none := by
  intro msgs
  induction msgs with
  | nil => intro b bs; simp [pickRepAux]
  | cons m rest ih =>
    intro b bs
    rw [pickRepAux]
    by_cases hq : tokenize (normalize_content m) = []
    · rw [if_pos hq]; exact ih b bs
    · rw [if_neg hq]
      by_cases hs : bs < repScore w m
      · rw [if_pos hs]; exact ih m (repScore w m)
      · rw [if_neg hs]; exact ih b bs

theorem pickRepAux_none_iff (w : WMap) :
    ∀ (msgs : List String) (bs : ℝ),
      pickRepAux w msgs none bs = none ↔
        ∀ m ∈ msgs, repQual m → repScore w m ≤ bs := by
  intro msgs
  induction msgs with
  | nil => intro bs; simp [pickRepAux]
  | cons m rest ih =>
    intro bs
    rw [pickRepAux]
    by_cases hq : tokenize (normalize_content m) = []
    · rw [if_pos hq, ih]
      constructor
      · intro h m' hm' hq'
        rcases List.mem_cons.mp hm' with h' | h'
        · exact absurd (h' ▸ hq) hq'
        · exact h m' h' hq'
      · intro h m' hm' hq'
        exact h m' (List.mem_cons_of_mem _ hm') hq'
    · rw [if_neg hq]
      by_cases hs : bs < repScore w m
      · rw [if_pos hs]
        constructor
        · intro h
          exact absurd h (pickRepAux_some_ne_none w rest m (repScore w m))
        · intro h
          exact absurd (h m (by simp) hq) (not_le.mpr hs)
      · rw [if_neg hs, ih]
        constructor
        · intro h m' hm' hq'
          rcases List.mem_cons.mp hm' with h' | h'
          · subst h'; exact not_lt.mp hs
          · exact h m' h' hq'
        · intro h m' hm' hq'
          exact h m' (List.mem_cons_of_mem _ hm') hq'

theorem pickRepAux_some_spec (w : WMap) :
    ∀ (msgs : List String) (b0 : Option String) (bs : ℝ) (b : String),
      pickRepAux w msgs b0 bs = some b →
        (b0 = some b ∧ ∀ m ∈ msgs, repQual m → repScore w m ≤ bs) ∨
        (∃ l1 l2, msgs = l1 ++ b :: l2 ∧ repQual b ∧ bs < repScore w b ∧
          (∀ m ∈ l1, repQual m → repScore w m < repScore w b) ∧
          (∀ m ∈ l2, repQual m → repScore w m ≤ repScore w b)) := by
  intro msgs
  induction msgs with
  | nil =>
    intro b0 bs b h
    rw [pickRepAux] at h
    exact Or.inl ⟨h, by simp⟩
  | cons m rest ih =>
    intro b0 bs b h
    rw [pickRepAux] at h
    by_cases hq : tokenize (normalize_content m) = []
    · rw [if_pos hq] at h
      rcases ih b0 bs b h with ⟨hb, hall⟩ | ⟨l1, l2, heq, hqb, hbs, h1, h2⟩
      · refine Or.inl ⟨hb, ?_⟩
        intro m' hm' hq'
        rcases List.mem_cons.mp hm' with h' | h'
        · exact absurd (h' ▸ hq) hq'
        · exact hall m' h' hq'
      · refine Or.inr ⟨m :: l1, l2, by rw [heq]; simp, hqb, hbs, ?_, h2⟩
        intro m' hm' hq'
        rcases List.mem_cons.mp hm' with h' | h'
        · exact absurd (h' ▸ hq) hq'
        · exact h1 m' h' hq'
    · rw [if_neg hq] at h
      by_cases hs : bs < repScore w m
      · rw [if_pos hs] at h
        rcases ih (some m) (repScore w m) b h with
          ⟨hb, hall⟩ | ⟨l1, l2, heq, hqb, hbs, h1, h2⟩
        · have hbm : b = m := by injection hb.symm
          subst hbm
          exact Or.inr ⟨[], rest, rfl, hq, hs, by simp, hall⟩
        · refine Or.inr ⟨m :: l1, l2, by rw [heq]; simp, hqb, lt_trans hs hbs, ?_, h2⟩
          intro m' hm' hq'
          rcases List.mem_cons.mp hm' with h' | h'
          · subst h'; exact hbs
          · exact h1 m' h' hq'
      · rw [if_neg hs] at h
        rcases ih b0 bs b h with ⟨hb, hall⟩ | ⟨l1, l2, heq, hqb, hbs, h1, h2⟩
        · refine Or.inl ⟨hb, ?_⟩
          intro m' hm' hq'
          rcases List.mem_cons.mp hm' with h' | h'
          · subst h'; exact not_lt.mp hs
          · exact hall m' h' hq'
        · refine Or.inr ⟨m :: l1, l2, by rw [heq]; simp, hqb, hbs, ?_, h2⟩
          intro m' hm' hq'
          rcases List.mem_cons.mp hm' with h' | h'
          · subst h'; exact lt_of_le_of_lt (not_lt.mp hs) hbs
          · exact h1 m' h' hq'

/-! ## Claim C7 -/

/-- C7 (amended: a winning message must additionally score strictly above
zero, because the running best starts at 0.0 and the comparison is
strict): the selector returns `none` exactly when every message with at
least one token scores at most 0; when it returns a message, that message
has tokens, scores strictly above 0, strictly beats every earlier
qualifying message, and at least ties every later one (first-seen wins
ties). -/
theorem C7_pick_representative_spec :
    (∀ (msgs : List String) (w : WMap),
      pick_representative_message msgs w = none ↔
        ∀ m ∈ msgs, repQual m → repScore w m ≤ 0) ∧
    (∀ (msgs : List String) (w : WMap) (b : String),
      pick_representative_message msgs w = some b →
        ∃ l1 l2, msgs = l1 ++ b :: l2 ∧ repQual b ∧ 0 < repScore w b ∧
          (∀ m ∈ l1, repQual m → repScore w m < repScore w b) ∧
          (∀ m ∈ l2, repQual m → repScore w m ≤ repScore w b)) := by
  constructor
  · intro msgs w
    exact pickRepAux_none_iff w msgs 0
  · intro msgs w b h
    rcases pickRepAux_some_spec w msgs none 0 b h with ⟨hb, -⟩ | hr
    · cases hb
    · exact hr

/-- The original C7 fails as stated: with weights `{}` the message
`"zz zz"` qualifies (it has tokens) and trivially has the highest score,
yet the code returns `None`, because the running best starts at `0.0` and
the comparison is strict. -/
theorem C7_counterexample :
    repQual "zz zz" ∧
    pick_representative_message ["zz zz"] [] = none := by
  have hn : normalize_content "zz zz" = "zz zz" := by
    show String.mk (normalizeChars _) = _
    rw [normalizeChars_noop (by unfold NoUrl; decide) (by decide)]
    decide
  have ht : tokenize "zz zz" = ["zz", "zz"] := by decide
  have hsc : repScore [] "zz zz" = 0 := by
    unfold repScore msgScore
    rw [hn, ht]
    simp [lookupW]
  constructor
  · unfold repQual
    rw [hn, ht]
    simp
  · unfold pick_representative_message
    rw [pickRepAux, hn, ht, if_neg (by simp), hsc, if_neg (lt_irrefl 0),
      pickRepAux]

/-- Witness for the amended C7 at a concrete input where a message is
selected. -/
theorem C7_pick_representative_spec_witness :
    ∃ l1 l2, (["hi hi"] : List String) = l1 ++ "hi hi" :: l2 ∧
      repQual "hi hi" ∧ 0 < repScore [("hi", (2 : ℝ))] "hi hi" ∧
      (∀ m ∈ l1, repQual m →
        repScore [("hi", (2 : ℝ))] m < repScore [("hi", (2 : ℝ))] "hi hi") ∧
      (∀ m ∈ l2, repQual m →
        repScore [("hi", (2 : ℝ))] m ≤ repScore [("hi", (2 : ℝ))] "hi hi") := by
  have hn : normalize_content "hi hi" = "hi hi" := by
    show String.mk (normalizeChars _) = _
    rw [normalizeChars_noop (by unfold NoUrl; decide) (by decide)]
    decide
  have ht : tokenize "hi hi" = ["hi", "hi"] := by decide
  have hsc : repScore [("hi", (2 : ℝ))] "hi hi" = 2 := by
    unfold repScore msgScore
    rw [hn, ht]
    simp [lookupW]
  refine C7_pick_representative_spec.2 ["hi hi"] [("hi", 2)] "hi hi" ?_
  unfold pick_representative_message
  rw [pickRepAux, hn, ht, if_neg (by simp), hsc, if_pos (by norm_num),
    pickRepAux]

/-! ## Counters and feature extractors used by the aggregation loop -/

/-- `Counter[k] += n` (new keys are appended, preserving insertion
order). -/
def cntBump {α : Type} [DecidableEq α] : List (α × ℕ) → α → ℕ → List (α × ℕ)
  | [], x, k => [(x, k)]
  | (y, n) :: rest, x, k =>
    if y = x then (y, n + k) :: rest else (y, n) :: cntBump rest x k

/-- `Counter.update(iterable)`: add 1 for each listed item. -/
def cntUpdate {α : Type} [DecidableEq α] (c : List (α × ℕ)) (xs : List α) :
    List (α × ℕ) :=
  xs.foldl (fun acc x => cntBump acc x 1) c

/-- `Counter.update(other_counter)`: add the other counter's counts. -/
def cntMerge {α : Type} [DecidableEq α] (c d : List (α × ℕ)) : List (α × ℕ) :=
  d.foldl (fun acc p => cntBump acc p.1 p.2) c

/-- The sum of a counter's values (`sum(counter.values())`). -/
def cntSum {α : Type} (c : List (α × ℕ)) : ℕ := (c.map Prod.snd).sum

/-- Non-overlapping substring count (`str.count`). -/
def countSubstr (pat : List Char) (l : List Char) : ℕ :=
  match l with
  | [] => 0
  | c :: rest =>
    if pat ≠ [] ∧ pat = (c :: rest).take pat.length then
      1 + countSubstr pat ((c :: rest).drop pat.length)
    else countSubstr pat rest
termination_by l.length
decreasing_by
  · rename_i hcond
    simp only [List.length_drop, List.length_cons]
    have : pat.length ≠ 0 := by
      intro h0
      exact hcond.1 (List.eq_nil_of_length_eq_zero h0)
    omega
  · simp

/-- `count_punct(text)`: each of the nine punctuation marks counted by raw
substring occurrence over the whole text (a `Counter` key is created for
every mark, even at count 0). -/
def count_punct (s : String) : Cnt :=
  [("!", countSubstr ['!'] s.data),
   ("?", countSubstr ['?'] s.data),
   ("...", countSubstr ['.', '.', '.'] s.data),
   (".", countSubstr ['.'] s.data),
   (",", countSubstr [','] s.data),
   (";", countSubstr [';'] s.data),
   (":", countSubstr [':'] s.data),
   ("\"", countSubstr ['"'] s.data),
   (String.mk [apostropheChar], countSubstr [apostropheChar] s.data)]

/-- Collapse maximal whitespace runs into single spaces
(`re.sub(r"\s+", " ", text)`); the flag records whether the previous
character was whitespace. -/
def collapseWsGo : List Char → Bool → List Char
  | [], _ => []
  | c :: rest, prevWs =>
    if isSpc c then
      if prevWs then collapseWsGo rest true else ' ' :: collapseWsGo rest true
    else c :: collapseWsGo rest false

/-- Overlapping 3-character windows. -/
def windows3 : List Char → List (List Char)
  | a :: b :: c :: rest => [a, b, c] :: windows3 (b :: c :: rest)
  | _ => []

/-- `char_trigrams(text)`: lower-case, collapse whitespace, count every
3-character window that is not all whitespace. -/
def char_trigrams (s : String) : Cnt :=
  cntUpdate []
    (((windows3 (collapseWsGo (s.data.map Char.toLower) false)).filter
      (fun w => w.any (fun c => !isSpc c))).map String.mk)

/-- Split on maximal runs of separator characters (`re.split(r"[...]+")`);
the flag records whether the previous character was a separator. -/
def splitRunsGo (p : Char → Bool) : List Char → List Char → Bool → List (List Char)
  | [], cur, _ => [cur.reverse]
  | c :: rest, cur, prevSep =>
    if p c then
      if prevSep then splitRunsGo p rest [] true
      else cur.reverse :: splitRunsGo p rest [] true
    else splitRunsGo p rest (c :: cur) false

/-- `sentence_word_counts(text)`: split on `[.!?]+` runs and record the
surface-word count of each segment that has at least one word. -/
def sentence_word_counts (s : String) : List ℕ :=
  ((splitRunsGo (fun c => c = '.' || c = '!' || c = '?') s.data [] false).map
    (fun part => (basic_words (String.mk part)).length)).filter (fun n => n ≠ 0)

/-- The ASCII letter class `[A-Za-z]`. -/
def asciiAlpha (c : Char) : Bool :=
  ('A' ≤ c && c ≤ 'Z') || ('a' ≤ c && c ≤ 'z')

/-- Python `str.isalpha` on the (ASCII-letter) cleaned word. -/
def pyIsAlpha (l : List Char) : Bool := !l.isEmpty && l.all asciiAlpha

/-- `is_multiline(text)`: a newline inside the stripped text. -/
def is_multiline (s : String) : Bool := (pyStrip s.data).contains '\n'

/-- Scanner for `(.)\1{2,}` with IGNORECASE (`.` does not match a
newline): three consecutive characters equal up to case. -/
def stretchyGo : List Char → Bool
  | a :: b :: c :: rest =>
    (a != '\n' && a.toLower == b.toLower && b.toLower == c.toLower) ||
      stretchyGo (b :: c :: rest)
  | _ => false

/-- `has_stretchy_word(text)`. -/
def has_stretchy_word (s : String) : Bool :=
  stretchyGo s.data

/-- `uppercase_ratio(text)`: uppercase letters over all letters, 0 when
there is no letter. -/
noncomputable def uppercase_ratio (s : String) : ℝ :=
  let letters := s.data.filter Char.isAlpha
  if letters.isEmpty then 0
  else ((letters.filter Char.isUpper).length : ℝ) / (letters.length : ℝ)

/-- The Unicode ranges `extract_unicode_emoji` scans for. -/
def isEmojiChar (c : Char) : Bool :=
  (0x1F300 ≤ c.toNat && c.toNat ≤ 0x1F5FF) ||
  (0x1F600 ≤ c.toNat && c.toNat ≤ 0x1F64F) ||
  (0x1F680 ≤ c.toNat && c.toNat ≤ 0x1F6FF) ||
  (0x1F700 ≤ c.toNat && c.toNat ≤ 0x1F77F) ||
  (0x1F900 ≤ c.toNat && c.toNat ≤ 0x1F9FF) ||
  (0x1FA70 ≤ c.toNat && c.toNat ≤ 0x1FAFF) ||
  (0x2700 ≤ c.toNat && c.toNat ≤ 0x27BF) ||
  (0x1F1E6 ≤ c.toNat && c.toNat ≤ 0x1F1FF)

/-- `extract_unicode_emoji(text)`: every character in the emoji ranges, in
reading order. -/
def extract_unicode_emoji (s : String) : List Char :=
  s.data.filter isEmojiChar

/-- Backtick-pair search for the regex fragment of `has_code_block`
(a backtick, then one or more non-backticks, then a backtick); the state
holds the distance to the previous backtick, when one has been seen. -/
def tickGo : List Char → Option ℕ → Bool
  | [], _ => false
  | c :: rest, st =>
    if c = backtickChar then
      match st with
      | some k => if 0 < k then true else tickGo rest (some 0)
      | none => tickGo rest (some 0)
    else tickGo rest (st.map (· + 1))

/-- `has_code_block(text)`: a triple backtick anywhere, or an inline
single-backtick pair. -/
def has_code_block (s : String) : Bool :=
  decide (0 < countSubstr [backtickChar, backtickChar, backtickChar] s.data) ||
    tickGo s.data none

/-- The link test of the loop: `re.search(r"https?://", content)`. -/
def hasLink (s : String) : Bool :=
  decide (0 < countSubstr httpsChars s.data) ||
    decide (0 < countSubstr httpChars s.data)

/-- The quote-block test `re.search(r'(^|\n)>\s*\S', content)`; the flag
records whether the scanner is at the start of a line. -/
def quoteGo : List Char → Bool → Bool
  | [], _ => false
  | c :: rest, atStart =>
    if atStart && c = '>' then
      if (rest.dropWhile isSpc).isEmpty then quoteGo rest (c = '\n') else true
    else quoteGo rest (c = '\n')

/-- `re.search(r'(^|\n)>\s*\S', content) is not None`. -/
def hasQuoteBlock (s : String) : Bool := quoteGo s.data true

/-- The `STOPWORDS` set. -/
def STOPWORDS : List String :=
  ["a", "about", "all", "am", "an", "and", "are", "as", "at", "be", "been",
   "but", "by", "can", "could", "did", "do", "does", "for", "from", "get",
   "got", "had", "has", "have", "he", "her", "hers", "him", "his", "how",
   "i", "if", "ill", "im", "in", "is", "it", "its", "just", "like", "me",
   "mine", "my", "no", "not", "of", "off", "oh", "ok", "on", "or", "our",
   "out", "so", "that", "the", "their", "them", "then", "there", "these",
   "they", "this", "those", "to", "too", "up", "was", "we", "well", "were",
   "what", "when", "where", "who", "why", "will", "with", "would", "ya",
   "yeah", "you", "your", "youre"]

/-- The `COMMON_WORDS` allow-list of the typo heuristic. -/
def COMMON_WORDS : List String :=
  ["about", "after", "again", "against", "almost", "along", "also",
   "always", "another", "around", "away", "back", "because", "before",
   "being", "between", "called", "could", "different", "during", "early",
   "enough", "even", "every", "family", "first", "found", "friend",
   "great", "group", "happy", "house", "important", "large", "later",
   "little", "long", "money", "morning", "mother", "never", "night",
   "nothing", "other", "place", "point", "power", "problem", "really",
   "right", "school", "small", "something", "sound", "state", "still",
   "story", "study", "thing", "think", "thought", "through", "under",
   "until", "water", "where", "while", "white", "woman", "world", "work",
   "year"]

/-- `estimate_typos(words)`: count surface words of length at least 4
whose letters-only lower-casing is non-empty, not a stopword, not a common
word, and purely alphabetic. -/
def estimate_typos (ws : List String) : ℕ :=
  (ws.filter (fun w =>
    decide (4 ≤ w.length) &&
    (let cleaned := (w.data.filter asciiAlpha).map Char.toLower
     !cleaned.isEmpty &&
     !(STOPWORDS.contains (String.mk cleaned)) &&
     !(COMMON_WORDS.contains (String.mk cleaned)) &&
     pyIsAlpha cleaned))).length

/-- A word boundary `\b` after a match whose last character is a word
character: end of input or a non-word character. -/
def boundaryAfter (l : List Char) : Bool :=
  match l with
  | [] => true
  | c :: _ => !pyWordChar c

/-- Match `ha+ha+\b` at the head of (lower-cased) input, returning the
remainder (the greedy runs need no backtracking since `a` differs from the
characters that follow each run in the pattern). -/
def matchHaha (l : List Char) : Option (List Char) :=
  match l with
  | 'h' :: rest =>
    if rest.takeWhile (· = 'a') = [] then none
    else
      match rest.dropWhile (· = 'a') with
      | 'h' :: rest2 =>
        if rest2.takeWhile (· = 'a') = [] then none
        else
          if boundaryAfter (rest2.dropWhile (· = 'a')) then
            some (rest2.dropWhile (· = 'a'))
          else none
      | _ => none
  | _ => none

/-- Match `l+o+l+\b` at the head of (lower-cased) input. -/
def matchLol (l : List Char) : Option (List Char) :=
  match l with
  | 'l' :: rest =>
    if (rest.dropWhile (· = 'l')).takeWhile (· = 'o') = [] then none
    else
      match (rest.dropWhile (· = 'l')).dropWhile (· = 'o') with
      | 'l' :: rest2 =>
        if boundaryAfter (rest2.dropWhile (· = 'l')) then
          some (rest2.dropWhile (· = 'l'))
        else none
      | _ => none
  | _ => none

/-- Match one of an ordered list of literal alternatives followed by a
word boundary, at the head of the input. -/
def matchAlts (alts : List (List Char)) (l : List Char) : Option (List Char) :=
  match alts with
  | [] => none
  | a :: rest =>
    if a ≠ [] ∧ a = l.take a.length ∧ boundaryAfter (l.drop a.length) = true
    then some (l.drop a.length)
    else matchAlts rest l


theorem matchHaha_length {l r : List Char} (h : matchHaha l = some r) :
    r.length < l.length := by
  unfold matchHaha at h
  split at h <;> try cases h
  rename_i rest
  split at h <;> try cases h
  split at h <;> try cases h
  rename_i rest2 hdrop
  split at h <;> try cases h
  split at h <;> try cases h
  have e1 : (rest2.dropWhile (· = 'a')).length ≤ rest2.length :=
    dropWhile_length_le _ _
  have e2 : (('h' : Char) :: rest2).length ≤ rest.length := by
    rw [← hdrop]
    exact dropWhile_length_le _ _
  simp only [List.length_cons] at e2 ⊢
  omega

theorem matchLol_length {l r : List Char} (h : matchLol l = some r) :
    r.length < l.length := by
  unfold matchLol at h
  split at h <;> try cases h
  rename_i rest
  split at h <;> try cases h
  split at h <;> try cases h
  rename_i rest2 hdrop
  split at h <;> try cases h
  have e1 : (rest2.dropWhile (· = 'l')).length ≤ rest2.length :=
    dropWhile_length_le _ _
  have e2 : (('l' : Char) :: rest2).length ≤
      ((rest.dropWhile (· = 'l')).dropWhile (· = 'o')).length := by
    rw [← hdrop]
  have e3 : ((rest.dropWhile (· = 'l')).dropWhile (· = 'o')).length ≤
      (rest.dropWhile (· = 'l')).length := dropWhile_length_le _ _
  have e4 : (rest.dropWhile (· = 'l')).length ≤ rest.length :=
    dropWhile_length_le _ _
  simp only [List.length_cons] at e2 ⊢
  omega

theorem matchAlts_length {alts : List (List Char)} {l r : List Char}
    (h : matchAlts alts l = some r) : r.length < l.length := by
  induction alts with
  | nil => cases h
  | cons a rest ih =>
    unfold matchAlts at h
    split at h
    · rename_i hcond
      injection h with h
      subst h
      obtain ⟨hne, htake, -⟩ := hcond
      have h1 : 1 ≤ a.length := by
        cases a with
        | nil => exact absurd rfl hne
        | cons x xs => simp
      have h2 : a.length ≤ l.length := by
        have := congrArg List.length htake
        simp only [List.length_take] at this
        omega
      simp only [List.length_drop]
      omega
    · exact ih h

/-- Count the leftmost non-overlapping matches of a head-matcher over the
input, advancing one character on failure (`re.finditer`).  The Boolean
records whether a word boundary `\b` holds before the current position; all
patterns used with this scanner end in a word character, so no new match
can start at the position immediately following a match. -/
def countPat (pm : List Char → Option (List Char))
    (hpm : ∀ {l r : List Char}, pm l = some r → r.length < l.length) :
    Bool → List Char → ℕ
  | _, [] => 0
  | bOK, c :: rest =>
    if bOK then
      match h : pm (c :: rest) with
      | some rem => 1 + countPat pm hpm false rem
      | none => countPat pm hpm (!pyWordChar c) rest
    else countPat pm hpm (!pyWordChar c) rest
termination_by _ l => l.length
decreasing_by
  · exact hpm h
  · simp
  · simp

/-- `find_laughter(text)`: the four case-insensitive laughter patterns,
each counted by number of matches and keyed by its regex source; a key is
present only when the pattern matched at least once. -/
def find_laughter (s : String) : Cnt :=
  ([("\\bha+ha+\\b",
      countPat matchHaha (fun h => matchHaha_length h) true
        (s.data.map Char.toLower)),
    ("\\bl+o+l+\\b",
      countPat matchLol (fun h => matchLol_length h) true
        (s.data.map Char.toLower)),
    ("\\blmao\\b",
      countPat (matchAlts ["lmao".data]) (fun h => matchAlts_length h) true
        (s.data.map Char.toLower)),
    ("\\b(rofl|lmfao)\\b",
      countPat (matchAlts ["rofl".data, "lmfao".data])
        (fun h => matchAlts_length h) true
        (s.data.map Char.toLower))]).filter (fun p => p.2 != 0)

/-- The `STYLE_MARKERS` table, with each regex reduced to its ordered
literal alternatives (the optional space of `low ?key`/`high ?key`
expanded greedily, `(pls|please)` in alternation order). -/
def STYLE_MARKERS : List (String × List (List Char)) :=
  [("maybe", ["maybe".data]), ("idk", ["idk".data]), ("idc", ["idc".data]),
   ("kinda", ["kinda".data]), ("sorta", ["sorta".data]),
   ("probably", ["probably".data]), ("perhaps", ["perhaps".data]),
   ("guess", ["guess".data]), ("ngl", ["ngl".data]),
   ("honestly", ["honestly".data]), ("literally", ["literally".data]),
   ("actually", ["actually".data]), ("really", ["really".data]),
   ("super", ["super".data]), ("lowkey", ["low key".data, "lowkey".data]),
   ("highkey", ["high key".data, "highkey".data]), ("imo", ["imo".data]),
   ("fr", ["fr".data]), ("bro", ["bro".data]), ("dude", ["dude".data]),
   ("bruh", ["bruh".data]), ("nah", ["nah".data]), ("yo", ["yo".data]),
   ("yall", ["yall".data]), ("wtf", ["wtf".data]), ("omg", ["omg".data]),
   ("dang", ["dang".data]), ("pls", ["pls".data, "please".data]),
   ("jk", ["jk".data]), ("gg", ["gg".data]), ("wdym", ["wdym".data])]

/-- `collect_style_markers(text)`: per marker, the number of
case-insensitive matches; a key is present only at a positive count. -/
def collect_style_markers (s : String) : Cnt :=
  (STYLE_MARKERS.map (fun p =>
    (p.1, countPat (matchAlts p.2) (fun h => matchAlts_length h) true
      (s.data.map Char.toLower)))).filter (fun p => p.2 != 0)

/-- The character class `[\w\.\-]` of the `@name` mention alternative. -/
def mentionNameChar (c : Char) : Bool :=
  pyWordChar c || c = '.' || c = '-'

/-- Match `<@!?(\d+)>|@([\w\.\-]+)` at the head of the input, returning
the captured id or name and the remainder. -/
def matchMention (l : List Char) : Option (String × List Char) :=
  match l with
  | '<' :: '@' :: rest =>
    match rest with
    | '!' :: r2 =>
      if r2.takeWhile Char.isDigit = [] then none
      else
        match r2.dropWhile Char.isDigit with
        | '>' :: rem => some (String.mk (r2.takeWhile Char.isDigit), rem)
        | _ => none
    | _ =>
      if rest.takeWhile Char.isDigit = [] then none
      else
        match rest.dropWhile Char.isDigit with
        | '>' :: rem => some (String.mk (rest.takeWhile Char.isDigit), rem)
        | _ => none
  | '@' :: rest =>
    if rest.takeWhile mentionNameChar = [] then none
    else
      some (String.mk (rest.takeWhile mentionNameChar),
        rest.dropWhile mentionNameChar)
  | _ => none

theorem matchMention_length {l : List Char} {p : String × List Char}
    (h : matchMention l = some p) : p.2.length < l.length := by
  unfold matchMention at h
  split at h
  · rename_i rest
    split at h
    · rename_i r2
      split at h <;> try cases h
      split at h <;> try cases h
      rename_i rem hdrop
      have e1 : (('>' : Char) :: rem).length ≤ r2.length := by
        rw [← hdrop]
        exact dropWhile_length_le _ _
      simp only [List.length_cons] at e1 ⊢
      omega
    · split at h <;> try cases h
      split at h <;> try cases h
      rename_i rem hdrop
      have e1 : (('>' : Char) :: rem).length ≤ rest.length := by
        rw [← hdrop]
        exact dropWhile_length_le _ _
      simp only [List.length_cons] at e1 ⊢
      omega
  · rename_i rest
    split at h <;> try cases h
    have e1 : (rest.dropWhile mentionNameChar).length ≤ rest.length :=
      dropWhile_length_le _ _
    simp only [List.length_cons]
    omega
  · cases h

/-- The left-to-right scan of `MENTION_RE.finditer`. -/
def mentionsGo : List Char → List String
  | [] => []
  | c :: rest =>
    match h : matchMention (c :: rest) with
    | some p => p.1 :: mentionsGo p.2
    | none => mentionsGo rest
termination_by l => l.length
decreasing_by
  · exact matchMention_length h
  · simp

/-- `extract_mentions(text)`: the captured id or name of each match, in
reading order. -/
def extract_mentions (s : String) : List String := mentionsGo s.data

theorem dropWhile_cons_self_lt {p : Char → Bool} {c : Char} (rest : List Char)
    (hc : p c = true) :
    ((c :: rest).dropWhile p).length < (c :: rest).length := by
  rw [List.dropWhile_cons_of_pos hc]
  have := dropWhile_length_le p rest
  simp only [List.length_cons]
  omega

/-- The matches of the mixed repeated-punctuation pattern
`(?:\?+!+|!+\?+)`: a maximal question-mark run followed by a maximal
exclamation run, or the reverse. -/
def mixedRuns (l : List Char) : List (List Char) :=
  match l with
  | [] => []
  | c :: rest =>
    if hq : c = '?' then
      if ((c :: rest).dropWhile (· = '?')).takeWhile (· = '!') = [] then
        mixedRuns ((c :: rest).dropWhile (· = '?'))
      else
        ((c :: rest).takeWhile (· = '?') ++
            ((c :: rest).dropWhile (· = '?')).takeWhile (· = '!')) ::
          mixedRuns (((c :: rest).dropWhile (· = '?')).dropWhile (· = '!'))
    else if he : c = '!' then
      if ((c :: rest).dropWhile (· = '!')).takeWhile (· = '?') = [] then
        mixedRuns ((c :: rest).dropWhile (· = '!'))
      else
        ((c :: rest).takeWhile (· = '!') ++
            ((c :: rest).dropWhile (· = '!')).takeWhile (· = '?')) ::
          mixedRuns (((c :: rest).dropWhile (· = '!')).dropWhile (· = '?'))
    else mixedRuns rest
termination_by l.length
decreasing_by
  · exact dropWhile_cons_self_lt rest (by simp [hq])
  · calc ((((c :: rest).dropWhile (· = '?')).dropWhile (· = '!'))).length
        ≤ ((c :: rest).dropWhile (· = '?')).length := dropWhile_length_le _ _
      _ < (c :: rest).length := dropWhile_cons_self_lt rest (by simp [hq])
  · exact dropWhile_cons_self_lt rest (by simp [he])
  · calc ((((c :: rest).dropWhile (· = '!')).dropWhile (· = '?'))).length
        ≤ ((c :: rest).dropWhile (· = '!')).length := dropWhile_length_le _ _
      _ < (c :: rest).length := dropWhile_cons_self_lt rest (by simp [he])
  · simp

/-- The repeated-punctuation hits of one message, in the order the loop
records them: `\?{2,}` runs, then `!{2,}` runs, then mixed runs. -/
def repeatedPunctHits (s : String) : List String :=
  ((extractRuns (· = '?') s.data).filter (fun r => decide (2 ≤ r.length))).map
      String.mk ++
    ((extractRuns (· = '!') s.data).filter
      (fun r => decide (2 ≤ r.length))).map String.mk ++
    (mixedRuns s.data).map String.mk

/-! ## The aggregation loop of `main` -/

/-- One ingested chat message.  The timestamp is modelled by its hour of
day, the only component the loop reads; parsing is ingestion-level and out
of scope. -/
structure Message where
  author_id : String
  author_name : String
  content : String
  is_bot : Bool
  timestamp : Option ℕ

/-- The hard-coded `USER_ID_ALIASES` table. -/
def USER_ID_ALIASES : List (String × String) :=
  [("186665676134547461", "Aaron"), ("208425244128444418", "Brian"),
   ("410595870380392458", "Irfan"), ("200067001035653131", "Ryan")]

/-- The keys of `USER_ID_ALIASES`. -/
def aliasKeys : List String := USER_ID_ALIASES.map Prod.fst

/-- Update one author's slot in a per-author table. -/
def updAt {V : Type} (f : String → V) (k : String) (v : V) : String → V :=
  fun x => if x = k then v else f x

/-- Python `str.isupper`: at least one cased character and no cased
character that is not uppercase. -/
def pyIsUpper (t : String) : Bool :=
  t.data.any (fun c => c.isUpper || c.isLower) &&
    t.data.all (fun c => !(c.isUpper || c.isLower) || c.isUpper)

/-- The per-author accumulators of the loop in `main`; each `defaultdict`
becomes a total function whose initial value is the default everywhere
(`phrase_counts` and `phrase_counts_by_author` are initialized by `main`
but never written: phrase n-grams were removed). -/
structure PipelineState where
  authors : String → Option String
  messages_by_author : String → List String
  token_counts : String → Cnt
  phrase_counts : Cnt
  phrase_counts_by_author : String → Cnt
  quotes_by_author : String → Cnt
  emoji_by_author : String → List (Char × ℕ)
  raw_message_counts : String → ℕ
  word_lengths_by_author : String → List ℕ
  char_lengths_by_author : String → List ℕ
  mentions_by_author : String → Cnt
  link_counts_by_author : String → ℕ
  quote_block_by_author : String → ℕ
  code_blocks_by_author : String → ℕ
  multiline_by_author : String → ℕ
  stretchy_by_author : String → ℕ
  shouty_by_author : String → ℕ
  repeated_punct_by_author : String → Cnt
  hours_by_author : String → List (ℕ × ℕ)
  markers_by_author : String → Cnt
  opener1_by_author : String → Cnt
  opener2_by_author : String → Cnt
  closer1_by_author : String → Cnt
  closer2_by_author : String → Cnt
  punct_by_author : String → Cnt
  uppercase_words_by_author : String → Cnt
  char_count_by_author : String → ℕ
  char_trigrams_by_author : String → Cnt
  laughter_by_author : String → Cnt
  sentence_lengths_by_author : String → List ℕ
  word_char_lengths_by_author : String → List ℕ
  typo_counts_by_author : String → ℕ

/-- The state before the first message: every accumulator empty. -/
def initState : PipelineState where
  authors := fun _ => none
  messages_by_author := fun _ => []
  token_counts := fun _ => []
  phrase_counts := []
  phrase_counts_by_author := fun _ => []
  quotes_by_author := fun _ => []
  emoji_by_author := fun _ => []
  raw_message_counts := fun _ => 0
  word_lengths_by_author := fun _ => []
  char_lengths_by_author := fun _ => []
  mentions_by_author := fun _ => []
  link_counts_by_author := fun _ => 0
  quote_block_by_author := fun _ => 0
  code_blocks_by_author := fun _ => 0
  multiline_by_author := fun _ => 0
  stretchy_by_author := fun _ => 0
  shouty_by_author := fun _ => 0
  repeated_punct_by_author := fun _ => []
  hours_by_author := fun _ => []
  markers_by_author := fun _ => []
  opener1_by_author := fun _ => []
  opener2_by_author := fun _ => []
  closer1_by_author := fun _ => []
  closer2_by_author := fun _ => []
  punct_by_author := fun _ => []
  uppercase_words_by_author := fun _ => []
  char_count_by_author := fun _ => 0
  char_trigrams_by_author := fun _ => []
  laughter_by_author := fun _ => []
  sentence_lengths_by_author := fun _ => []
  word_char_lengths_by_author := fun _ => []
  typo_counts_by_author := fun _ => 0

/-- One iteration of the fold in `main` over a single message: the alias
filter, the author-name record, the qualifying test, and every per-author
accumulator update, in source order. -/
noncomputable def step (min_quote_words : ℕ) (s : PipelineState)
    (msg : Message) : PipelineState :=
  if USER_ID_ALIASES ≠ [] ∧ msg.author_id ∉ aliasKeys then s
  else
    let k := msg.author_id
    let s1 := { s with authors := updAt s.authors k (some msg.author_name) }
    let norm := normalize_content msg.content
    let toks := tokenize norm
    let all_words := basic_words norm
    if toks = [] ∧ all_words = [] then s1
    else
      { s1 with
        raw_message_counts :=
          updAt s1.raw_message_counts k (s1.raw_message_counts k + 1),
        messages_by_author := updAt s1.messages_by_author k
          (s1.messages_by_author k ++ [pyStripStr msg.content]),
        token_counts := updAt s1.token_counts k
          (cntUpdate (s1.token_counts k) toks),
        word_lengths_by_author := updAt s1.word_lengths_by_author k
          (s1.word_lengths_by_author k ++ [toks.length]),
        char_lengths_by_author := updAt s1.char_lengths_by_author k
          (s1.char_lengths_by_author k ++ [msg.content.length]),
        char_count_by_author := updAt s1.char_count_by_author k
          (s1.char_count_by_author k + msg.content.length),
        word_char_lengths_by_author := updAt s1.word_char_lengths_by_author k
          (s1.word_char_lengths_by_author k ++ all_words.map String.length),
        sentence_lengths_by_author := updAt s1.sentence_lengths_by_author k
          (s1.sentence_lengths_by_author k ++ sentence_word_counts msg.content),
        typo_counts_by_author := updAt s1.typo_counts_by_author k
          (s1.typo_counts_by_author k + estimate_typos all_words),
        uppercase_words_by_author := updAt s1.uppercase_words_by_author k
          (cntUpdate (s1.uppercase_words_by_author k)
            (toks.filter (fun t => pyIsUpper t && decide (1 < t.length)))),
        char_trigrams_by_author := updAt s1.char_trigrams_by_author k
          (cntMerge (s1.char_trigrams_by_author k) (char_trigrams norm)),
        laughter_by_author := updAt s1.laughter_by_author k
          (cntMerge (s1.laughter_by_author k) (find_laughter norm)),
        mentions_by_author := updAt s1.mentions_by_author k
          (cntUpdate (s1.mentions_by_author k) (extract_mentions msg.content)),
        link_counts_by_author := updAt s1.link_counts_by_author k
          (if hasLink msg.content then s1.link_counts_by_author k + 1
           else s1.link_counts_by_author k),
        quote_block_by_author := updAt s1.quote_block_by_author k
          (if hasQuoteBlock msg.content then s1.quote_block_by_author k + 1
           else s1.quote_block_by_author k),
        code_blocks_by_author := updAt s1.code_blocks_by_author k
          (if has_code_block msg.content then s1.code_blocks_by_author k + 1
           else s1.code_blocks_by_author k),
        multiline_by_author := updAt s1.multiline_by_author k
          (if is_multiline msg.content then s1.multiline_by_author k + 1
           else s1.multiline_by_author k),
        stretchy_by_author := updAt s1.stretchy_by_author k
          (if has_stretchy_word msg.content then s1.stretchy_by_author k + 1
           else s1.stretchy_by_author k),
        shouty_by_author := updAt s1.shouty_by_author k
          (if (0.6 : ℝ) ≤ uppercase_ratio msg.content then
            s1.shouty_by_author k + 1
           else s1.shouty_by_author k),
        repeated_punct_by_author := updAt s1.repeated_punct_by_author k
          (cntUpdate (s1.repeated_punct_by_author k)
            (repeatedPunctHits msg.content)),
        hours_by_author := updAt s1.hours_by_author k
          (match msg.timestamp with
           | some h => cntUpdate (s1.hours_by_author k) [h]
           | none => s1.hours_by_author k),
        markers_by_author := updAt s1.markers_by_author k
          (cntMerge (s1.markers_by_author k) (collect_style_markers norm)),
        opener1_by_author := updAt s1.opener1_by_author k
          (match toks with
           | [] => s1.opener1_by_author k
           | t :: _ => cntUpdate (s1.opener1_by_author k) [t]),
        opener2_by_author := updAt s1.opener2_by_author k
          (if toks ≠ [] ∧ 2 ≤ toks.length then
            cntUpdate (s1.opener2_by_author k)
              [String.intercalate " " (toks.take 2)]
           else s1.opener2_by_author k),
        closer2_by_author := updAt s1.closer2_by_author k
          (if toks ≠ [] ∧ 2 ≤ toks.length then
            cntUpdate (s1.closer2_by_author k)
              [String.intercalate " " (toks.drop (toks.length - 2))]
           else s1.closer2_by_author k),
        closer1_by_author := updAt s1.closer1_by_author k
          (match toks with
           | [] => s1.closer1_by_author k
           | t :: ts => cntUpdate (s1.closer1_by_author k)
              [(t :: ts).getLast (by simp)]),
        quotes_by_author := updAt s1.quotes_by_author k
          (if toks ≠ [] ∧ min_quote_words ≤ toks.length then
            cntUpdate (s1.quotes_by_author k) [String.intercalate " " toks]
           else s1.quotes_by_author k),
        emoji_by_author := updAt s1.emoji_by_author k
          (cntUpdate (s1.emoji_by_author k) (extract_unicode_emoji msg.content)),
        punct_by_author := updAt s1.punct_by_author k
          (cntMerge (s1.punct_by_author k) (count_punct msg.content)) }

/-- The whole aggregation loop: fold `step` over the message sequence. -/
noncomputable def runFold (min_quote_words : ℕ) (msgs : List Message) :
    PipelineState :=
  msgs.foldl (step min_quote_words) initState

/-! ## Claim C8 -/

/-- C8: a non-qualifying message (no lexical token and no surface word
after normalization) leaves every accumulator unchanged: the raw message
count, the stored message list, and every counter and length list (only
the author display-name record, written before the qualifying test, is not
an accumulator). -/
theorem C8_nonqualifying_message_frame (mq : ℕ) (s : PipelineState)
    (msg : Message)
    (htoks : tokenize (normalize_content msg.content) = [])
    (hwords : basic_words (normalize_content msg.content) = []) :
    (step mq s msg).raw_message_counts = s.raw_message_counts ∧
    (step mq s msg).messages_by_author = s.messages_by_author ∧
    (step mq s msg).token_counts = s.token_counts ∧
    (step mq s msg).phrase_counts = s.phrase_counts ∧
    (step mq s msg).phrase_counts_by_author = s.phrase_counts_by_author ∧
    (step mq s msg).quotes_by_author = s.quotes_by_author ∧
    (step mq s msg).emoji_by_author = s.emoji_by_author ∧
    (step mq s msg).word_lengths_by_author = s.word_lengths_by_author ∧
    (step mq s msg).char_lengths_by_author = s.char_lengths_by_author ∧
    (step mq s msg).char_count_by_author = s.char_count_by_author ∧
    (step mq s msg).word_char_lengths_by_author = s.word_char_lengths_by_author ∧
    (step mq s msg).sentence_lengths_by_author = s.sentence_lengths_by_author ∧
    (step mq s msg).typo_counts_by_author = s.typo_counts_by_author ∧
    (step mq s msg).uppercase_words_by_author = s.uppercase_words_by_author ∧
    (step mq s msg).char_trigrams_by_author = s.char_trigrams_by_author ∧
    (step mq s msg).laughter_by_author = s.laughter_by_author ∧
    (step mq s msg).mentions_by_author = s.mentions_by_author ∧
    (step mq s msg).link_counts_by_author = s.link_counts_by_author ∧
    (step mq s msg).quote_block_by_author = s.quote_block_by_author ∧
    (step mq s msg).code_blocks_by_author = s.code_blocks_by_author ∧
    (step mq s msg).multiline_by_author = s.multiline_by_author ∧
    (step mq s msg).stretchy_by_author = s.stretchy_by_author ∧
    (step mq s msg).shouty_by_author = s.shouty_by_author ∧
    (step mq s msg).repeated_punct_by_author = s.repeated_punct_by_author ∧
    (step mq s msg).hours_by_author = s.hours_by_author ∧
    (step mq s msg).markers_by_author = s.markers_by_author ∧
    (step mq s msg).opener1_by_author = s.opener1_by_author ∧
    (step mq s msg).opener2_by_author = s.opener2_by_author ∧
    (step mq s msg).closer1_by_author = s.closer1_by_author ∧
    (step mq s msg).closer2_by_author = s.closer2_by_author ∧
    (step mq s msg).punct_by_author = s.punct_by_author := by
  simp only [step, htoks, hwords]
  by_cases hg : USER_ID_ALIASES ≠ [] ∧ msg.author_id ∉ aliasKeys
  · rw [if_pos hg]
    exact ⟨rfl, rfl, rfl, rfl, rfl, rfl, rfl, rfl, rfl, rfl, rfl, rfl, rfl,
      rfl, rfl, rfl, rfl, rfl, rfl, rfl, rfl, rfl, rfl, rfl, rfl, rfl, rfl,
      rfl, rfl, rfl, rfl⟩
  · rw [if_neg hg, if_pos (by simp)]
    exact ⟨rfl, rfl, rfl, rfl, rfl, rfl, rfl, rfl, rfl, rfl, rfl, rfl, rfl,
      rfl, rfl, rfl, rfl, rfl, rfl, rfl, rfl, rfl, rfl, rfl, rfl, rfl, rfl,
      rfl, rfl, rfl, rfl⟩

theorem normalize_content_empty : normalize_content "" = "" := by
  show String.mk (normalizeChars []) = ""
  unfold normalizeChars
  rw [urlSub_nil]
  decide

/-- Witness for C8 at a concrete non-qualifying message (empty content). -/
theorem C8_nonqualifying_message_frame_witness :
    (step 2 initState ⟨"186665676134547461", "Aaron", "", false, none⟩).raw_message_counts =
      initState.raw_message_counts ∧
    (step 2 initState ⟨"186665676134547461", "Aaron", "", false, none⟩).messages_by_author =
      initState.messages_by_author ∧
    (step 2 initState ⟨"186665676134547461", "Aaron", "", false, none⟩).token_counts =
      initState.token_counts ∧
    (step 2 initState ⟨"186665676134547461", "Aaron", "", false, none⟩).phrase_counts =
      initState.phrase_counts ∧
    (step 2 initState ⟨"186665676134547461", "Aaron", "", false, none⟩).phrase_counts_by_author =
      initState.phrase_counts_by_author ∧
    (step 2 initState ⟨"186665676134547461", "Aaron", "", false, none⟩).quotes_by_author =
      initState.quotes_by_author ∧
    (step 2 initState ⟨"186665676134547461", "Aaron", "", false, none⟩).emoji_by_author =
      initState.emoji_by_author ∧
    (step 2 initState ⟨"186665676134547461", "Aaron", "", false, none⟩).word_lengths_by_author =
      initState.word_lengths_by_author ∧
    (step 2 initState ⟨"186665676134547461", "Aaron", "", false, none⟩).char_lengths_by_author =
      initState.char_lengths_by_author ∧
    (step 2 initState ⟨"186665676134547461", "Aaron", "", false, none⟩).char_count_by_author =
      initState.char_count_by_author ∧
    (step 2 initState ⟨"186665676134547461", "Aaron", "", false, none⟩).word_char_lengths_by_author =
      initState.word_char_lengths_by_author ∧
    (step 2 initState ⟨"186665676134547461", "Aaron", "", false, none⟩).sentence_lengths_by_author =
      initState.sentence_lengths_by_author ∧
    (step 2 initState ⟨"186665676134547461", "Aaron", "", false, none⟩).typo_counts_by_author =
      initState.typo_counts_by_author ∧
    (step 2 initState ⟨"186665676134547461", "Aaron", "", false, none⟩).uppercase_words_by_author =
      initState.uppercase_words_by_author ∧
    (step 2 initState ⟨"186665676134547461", "Aaron", "", false, none⟩).char_trigrams_by_author =
      initState.char_trigrams_by_author ∧
    (step 2 initState ⟨"186665676134547461", "Aaron", "", false, none⟩).laughter_by_author =
      initState.laughter_by_author ∧
    (step 2 initState ⟨"186665676134547461", "Aaron", "", false, none⟩).mentions_by_author =
      initState.mentions_by_author ∧
    (step 2 initState ⟨"186665676134547461", "Aaron", "", false, none⟩).link_counts_by_author =
      initState.link_counts_by_author ∧
    (step 2 initState ⟨"186665676134547461", "Aaron", "", false, none⟩).quote_block_by_author =
      initState.quote_block_by_author ∧
    (step 2 initState ⟨"186665676134547461", "Aaron", "", false, none⟩).code_blocks_by_author =
      initState.code_blocks_by_author ∧
    (step 2 initState ⟨"186665676134547461", "Aaron", "", false, none⟩).multiline_by_author =
      initState.multiline_by_author ∧
    (step 2 initState ⟨"186665676134547461", "Aaron", "", false, none⟩).stretchy_by_author =
      initState.stretchy_by_author ∧
    (step 2 initState ⟨"186665676134547461", "Aaron", "", false, none⟩).shouty_by_author =
      initState.shouty_by_author ∧
    (step 2 initState ⟨"186665676134547461", "Aaron", "", false, none⟩).repeated_punct_by_author =
      initState.repeated_punct_by_author ∧
    (step 2 initState ⟨"186665676134547461", "Aaron", "", false, none⟩).hours_by_author =
      initState.hours_by_author ∧
    (step 2 initState ⟨"186665676134547461", "Aaron", "", false, none⟩).markers_by_author =
      initState.markers_by_author ∧
    (step 2 initState ⟨"186665676134547461", "Aaron", "", false, none⟩).opener1_by_author =
      initState.opener1_by_author ∧
    (step 2 initState ⟨"186665676134547461", "Aaron", "", false, none⟩).opener2_by_author =
      initState.opener2_by_author ∧
    (step 2 initState ⟨"186665676134547461", "Aaron", "", false, none⟩).closer1_by_author =
      initState.closer1_by_author ∧
    (step 2 initState ⟨"186665676134547461", "Aaron", "", false, none⟩).closer2_by_author =
      initState.closer2_by_author ∧
    (step 2 initState ⟨"186665676134547461", "Aaron", "", false, none⟩).punct_by_author =
      initState.punct_by_author :=
  C8_nonqualifying_message_frame 2 initState
    ⟨"186665676134547461", "Aaron", "", false, none⟩
    (by rw [show Message.content ⟨"186665676134547461", "Aaron", "", false, none⟩
          = "" from rfl, normalize_content_empty]; decide)
    (by rw [show Message.content ⟨"186665676134547461", "Aaron", "", false, none⟩
          = "" from rfl, normalize_content_empty]; decide)

/-! ## Claim C9 -/

/-- The alias filter: a message whose author id is not an alias key is
skipped before any write (the table is non-empty, so the truthiness guard
passes). -/
theorem step_skip (mq : ℕ) (s : PipelineState) (msg : Message)
    (h : msg.author_id ∉ aliasKeys) : step mq s msg = s := by
  unfold step
  rw [if_pos ⟨by decide, h⟩]

/-- Every per-author accumulator (and the author-name record) still holds
its default at key `k`. -/
def defaultAt (s : PipelineState) (k : String) : Prop :=
  s.authors k = none ∧ s.messages_by_author k = [] ∧ s.token_counts k = [] ∧
  s.phrase_counts_by_author k = [] ∧ s.quotes_by_author k = [] ∧
  s.emoji_by_author k = [] ∧ s.raw_message_counts k = 0 ∧
  s.word_lengths_by_author k = [] ∧ s.char_lengths_by_author k = [] ∧
  s.mentions_by_author k = [] ∧ s.link_counts_by_author k = 0 ∧
  s.quote_block_by_author k = 0 ∧ s.code_blocks_by_author k = 0 ∧
  s.multiline_by_author k = 0 ∧ s.stretchy_by_author k = 0 ∧
  s.shouty_by_author k = 0 ∧ s.repeated_punct_by_author k = [] ∧
  s.hours_by_author k = [] ∧ s.markers_by_author k = [] ∧
  s.opener1_by_author k = [] ∧ s.opener2_by_author k = [] ∧
  s.closer1_by_author k = [] ∧ s.closer2_by_author k = [] ∧
  s.punct_by_author k = [] ∧ s.uppercase_words_by_author k = [] ∧
  s.char_count_by_author k = 0 ∧ s.char_trigrams_by_author k = [] ∧
  s.laughter_by_author k = [] ∧ s.sentence_lengths_by_author k = [] ∧
  s.word_char_lengths_by_author k = [] ∧ s.typo_counts_by_author k = 0

/-- The step writes only at the message's own author key. -/
theorem step_defaultAt (mq : ℕ) (s : PipelineState) (msg : Message)
    (x : String) (hx : x ≠ msg.author_id) (h : defaultAt s x) :
    defaultAt (step mq s msg) x := by
  unfold defaultAt at h ⊢
  simp only [step]
  split
  · exact h
  · split <;> simp_all [updAt]

theorem runFold_defaultAt (mq : ℕ) (msgs : List Message) (k : String)
    (hk : k ∉ aliasKeys) : defaultAt (runFold mq msgs) k := by
  unfold runFold
  have hinit : defaultAt initState k := by
    unfold defaultAt initState
    exact ⟨rfl, rfl, rfl, rfl, rfl, rfl, rfl, rfl, rfl, rfl, rfl, rfl, rfl,
      rfl, rfl, rfl, rfl, rfl, rfl, rfl, rfl, rfl, rfl, rfl, rfl, rfl, rfl,
      rfl, rfl, rfl, rfl⟩
  have hstep : ∀ (s : PipelineState),
      defaultAt s k → defaultAt (msgs.foldl (step mq) s) k := by
    induction msgs with
    | nil => intro s hs; exact hs
    | cons m rest ih =>
      intro s hs
      simp only [List.foldl_cons]
      apply ih
      by_cases hx : k = m.author_id
      · rw [step_skip mq s m (hx ▸ hk)]
        exact hs
      · exact step_defaultAt mq s m k hx hs
  exact hstep initState hinit

/-- C9: the fold skips every message whose author id is not a key of the
(non-empty) `USER_ID_ALIASES` table, leaving the state untouched; hence
after folding any message sequence, every accumulator and the author-name
record still hold their defaults at every non-alias key — every author key
appearing in any accumulator is a key of `USER_ID_ALIASES`. -/
theorem C9_alias_filter_confines_authors :
    (∀ (mq : ℕ) (s : PipelineState) (msg : Message),
      msg.author_id ∉ aliasKeys → step mq s msg = s) ∧
    (∀ (mq : ℕ) (msgs : List Message) (k : String), k ∉ aliasKeys →
      defaultAt (runFold mq msgs) k) :=
  ⟨step_skip, runFold_defaultAt⟩

/-- Witness for C9 at a concrete non-alias author. -/
theorem C9_alias_filter_confines_authors_witness :
    step 2 initState ⟨"999", "Zoe", "hello there", false, none⟩ = initState ∧
    defaultAt (runFold 2 [⟨"999", "Zoe", "hello there", false, none⟩]) "999" :=
  ⟨C9_alias_filter_confines_authors.1 2 initState
      ⟨"999", "Zoe", "hello there", false, none⟩ (by decide),
   C9_alias_filter_confines_authors.2 2
      [⟨"999", "Zoe", "hello there", false, none⟩] "999" (by decide)⟩

/-! ## Claim C10 -/

theorem runsAux_chars (p : Char → Bool) :
    ∀ (l cur : List Char), (∀ c ∈ cur, p c = true) →
      ∀ t ∈ runsAux p cur l, ∀ c ∈ t, p c = true := by
  intro l
  induction l with
  | nil =>
    intro cur hcur t ht c hc
    unfold runsAux at ht
    split at ht
    · cases ht
    · rw [List.mem_singleton] at ht
      subst ht
      exact hcur c (List.mem_reverse.mp hc)
  | cons a rest ih =>
    intro cur hcur t ht c hc
    unfold runsAux at ht
    by_cases hp : p a
    · rw [if_pos hp] at ht
      refine ih (a :: cur) ?_ t ht c hc
      intro c' hc'
      rcases List.mem_cons.mp hc' with h' | h'
      · subst h'; exact hp
      · exact hcur c' h'
    · rw [if_neg hp] at ht
      by_cases hce : cur.isEmpty
      · rw [if_pos hce] at ht
        exact ih [] (by simp) t ht c hc
      · rw [if_neg hce] at ht
        rcases List.mem_cons.mp ht with h' | h'
        · subst h'
          exact hcur c (List.mem_reverse.mp hc)
        · exact ih [] (by simp) t h' c hc

theorem tokenize_chars {s t : String} (ht : t ∈ tokenize s) :
    ∀ c ∈ t.data, lexChar c = true := by
  unfold tokenize at ht
  have ht' := List.mem_of_mem_filter ht
  obtain ⟨run, hrun, hmk⟩ := List.mem_map.mp ht'
  subst hmk
  intro c hc
  exact runsAux_chars lexChar _ [] (by simp) run hrun c hc

theorem lexChar_cased_not_upper {c : Char} (h1 : lexChar c = true)
    (h2 : (c.isUpper || c.isLower) = true) : c.isUpper = false := by
  unfold lexChar at h1
  simp only [Bool.or_eq_true, Bool.and_eq_true, decide_eq_true_eq] at h1
  rcases h1 with (h1 | h1) | h1
  · obtain ⟨ha, hz⟩ := h1
    simp only [Char.le_def] at ha hz
    have ha' : (97 : ℕ) ≤ c.val.toNat := ha
    simp only [Char.isUpper, decide_eq_false_iff_not, Bool.and_eq_false_iff,
      decide_eq_true_eq]
    right
    intro hc
    have hc' : c.val.toNat ≤ 90 := hc
    omega
  · exfalso
    obtain ⟨h0, h9⟩ := h1
    simp only [Char.le_def] at h0 h9
    have h0' : (48 : ℕ) ≤ c.val.toNat := h0
    have h9' : c.val.toNat ≤ 57 := h9
    simp only [Bool.or_eq_true, Char.isUpper, Char.isLower, Bool.and_eq_true,
      decide_eq_true_eq] at h2
    rcases h2 with ⟨hc, -⟩ | ⟨hc, -⟩
    · have hc' : (65 : ℕ) ≤ c.val.toNat := hc
      omega
    · have hc' : (97 : ℕ) ≤ c.val.toNat := hc
      omega
  · rw [h1] at h2 ⊢
    exact absurd h2 (by decide)

/-- No lexical token ever tests as uppercase: the tokenizer lower-cases
before extracting. -/
theorem upperFilter_nil (s : String) :
    (tokenize s).filter (fun t => pyIsUpper t && decide (1 < t.length)) = [] := by
  rw [List.filter_eq_nil_iff]
  intro t ht
  have hchars := tokenize_chars ht
  suffices hup : pyIsUpper t = false by
    simp [hup]
  unfold pyIsUpper
  cases hany : t.data.any (fun c => c.isUpper || c.isLower) with
  | false => simp
  | true =>
    obtain ⟨c, hc, hcase⟩ := List.any_eq_true.mp hany
    have hupFalse := lexChar_cased_not_upper (hchars c hc) hcase
    have hall : t.data.all (fun c => !(c.isUpper || c.isLower) || c.isUpper)
        = false := by
      rw [List.all_eq_false]
      have hlow : c.isLower = true := by
        simpa [hupFalse] using hcase
      exact ⟨c, hc, by simp [hlow, hupFalse]⟩
    rw [hall, Bool.and_false]

/-- The uppercase-words counters stay empty through one step. -/
theorem step_uppercase_empty (mq : ℕ) (s : PipelineState) (msg : Message)
    (h : ∀ x, s.uppercase_words_by_author x = []) :
    ∀ x, (step mq s msg).uppercase_words_by_author x = [] := by
  intro x
  simp only [step]
  split
  · exact h x
  · split
    · exact h x
    · simp only [updAt]
      split
    
      · rw [h msg.author_id, upperFilter_nil]
        rfl
      · exact h x

theorem runFold_uppercase_empty (mq : ℕ) (msgs : List Message) :
    ∀ x, (runFold mq msgs).uppercase_words_by_author x = [] := by
  unfold runFold
  have hstep : ∀ (s : PipelineState),
      (∀ x, s.uppercase_words_by_author x = []) →
      ∀ x, (msgs.foldl (step mq) s).uppercase_words_by_author x = [] := by
    induction msgs with
    | nil => intro s hs; exact hs
    | cons m rest ih =>
      intro s hs
      simp only [List.foldl_cons]
      exact ih _ (step_uppercase_empty mq s m hs)
  exact hstep initState (fun _ => rfl)

/-- The `caps_rate` statistic of `author_payload`:
`sum(uppercase_words_by_author[aid].values()) / msg_count if msg_count
else 0`. -/
noncomputable def capsRate (s : PipelineState) (aid : String) : ℝ :=
  if s.raw_message_counts aid ≠ 0 then
    (cntSum (s.uppercase_words_by_author aid) : ℝ) /
      (s.raw_message_counts aid : ℝ)
  else 0

/-- C10: the uppercase test is applied to tokens the tokenizer has already
lower-cased, so the uppercase-words filter is always empty, the per-author
uppercase counter stays empty through the whole fold, and the reported
`caps_rate` is 0 for every author. -/
theorem C10_caps_rate_always_zero :
    (∀ s : String,
      (tokenize s).filter (fun t => pyIsUpper t && decide (1 < t.length)) = []) ∧
    (∀ (mq : ℕ) (msgs : List Message) (k : String),
      (runFold mq msgs).uppercase_words_by_author k = []) ∧
    (∀ (mq : ℕ) (msgs : List Message) (k : String),
      capsRate (runFold mq msgs) k = 0) := by
  refine ⟨upperFilter_nil, fun mq msgs k => runFold_uppercase_empty mq msgs k, ?_⟩
  intro mq msgs k
  unfold capsRate
  rw [runFold_uppercase_empty mq msgs k]
  split
  · show ((cntSum ([] : Cnt) : ℕ) : ℝ) / _ = 0
    show ((0 : ℕ) : ℝ) / _ = 0
    rw [Nat.cast_zero, zero_div]
  · rfl
